import Mathlib

/-
  Verification development for the `simple-github-analyzer` repository
  (single source file `main.py`).

  The Python code is shallowly embedded:
  * `datetime` values become the `PyDT` structure over `Nat` fields; the
    process-local timezone that Python `astimezone` consults on naive
    datetimes is made explicit as an integer offset (`tzMin`, minutes east
    of UTC);
  * exceptions become `Option`/`Except` results;
  * Python `dict[str, str]` becomes an insertion-ordered association list;
  * the regular expressions of the source are translated into executable
    recognizers.  For the patterns at hand the greedy backtracking search
    of Python `re` is deterministic (no repetition body can consume the
    delimiter that follows it), so maximal-munch scanners are faithful.
    Python `$` matches at the end of the string OR just before a single
    final newline; the recognizers model this.  Character classes are
    modelled over ASCII (Python `re` with IGNORECASE/Unicode would in
    addition admit a handful of non-ASCII letters/digits; no statement
    below depends on non-ASCII characters).
-/

/-! ### Basic character and string helpers -/

/-- ASCII whitespace as matched by Python `\s` (regex) on ASCII input:
space, tab, newline, carriage return, vertical tab, form feed. -/
def isPySpace (c : Char) : Bool :=
  c = ' ' || c = '\t' || c = '\n' || c = '\r' || c = '\x0b' || c = '\x0c'

/-- The class `[a-z\d]` under `re.IGNORECASE` (ASCII part): a letter of
either case or a decimal digit. -/
def alnumCI (c : Char) : Bool :=
  ('a' ≤ c.toLower && c.toLower ≤ 'z') || c.isDigit

/-- The repository-name class `[-a-z\d_.]` under IGNORECASE (ASCII part). -/
def repoOk (c : Char) : Bool :=
  alnumCI c || c = '-' || c = '_' || c = '.'

/-- Lexicographic comparison of character lists by code point; Python
`str <= str` on the characters of the strings. -/
def charsLe : List Char → List Char → Bool
  | [], _ => true
  | _ :: _, [] => false
  | a :: as, b :: bs => if a = b then charsLe as bs else decide (a.val < b.val)

/-- Python `s1 <= s2` on strings (lexicographic by code point). -/
def pyStrLe (a b : String) : Bool := charsLe a.data b.data

/-- Python `str.split('/')`: split on every slash, keeping empty pieces. -/
def splitOnSlash : List Char → List (List Char)
  | [] => [[]]
  | c :: cs =>
    match splitOnSlash cs with
    | [] => [[c]]
    | h :: t => if c = '/' then [] :: h :: t else (c :: h) :: t

/-- Python `s.rstrip('/')`: remove every trailing slash. -/
def rstripSlash (cs : List Char) : List Char :=
  (cs.reverse.dropWhile (fun c => c = '/')).reverse

/-- The last two elements of a list (Python `l[-2], l[-1]`); `none` models
the `IndexError` raised when fewer than two elements exist. -/
def lastTwo : List (List Char) → Option (List Char × List Char)
  | [] => none
  | [_] => none
  | [a, b] => some (a, b)
  | _ :: b :: c :: t => lastTwo (b :: c :: t)

/-! ### The header regex `^\S[^\r\n]*$|^$` (`Request._VALID_HEADER_REGEX`)

The first alternative wants a non-whitespace character, then characters
other than CR/LF, then `$` (end of string or just before one final
newline).  Because `[^\r\n]` cannot consume the character that blocks the
greedy run, maximal munch is exact.  The second alternative `^$` matches
the empty string and, via `$`, the one-character string of a newline. -/

/-- Does the remainder satisfy Python `$` (end, or a single final newline)? -/
def endNlOk : List Char → Bool
  | [] => true
  | [c] => c = '\n'
  | _ :: _ :: _ => false

/-- Whether `re.match(_VALID_HEADER_REGEX, v)` succeeds. -/
def headerValueMatches (v : String) : Bool :=
  (match v.data with
   | [] => false
   | c :: cs => !isPySpace c && endNlOk (cs.dropWhile (fun d => d ≠ '\r' && d ≠ '\n')))
  || v.data = [] || v.data = ['\n']

/-- Model of `Request.validate_header`: raises `InvalidHeaderError` iff the value
does not match the header regex (`true` = raises). -/
def validate_header_raises (kv : String × String) : Bool :=
  !headerValueMatches kv.2

/-- Model of `Request.validate_headers`: the name of the first header whose value
fails validation, i.e. the header for which `InvalidHeaderError` is raised;
`none` when validation passes. -/
def firstBadHeader (hs : List (String × String)) : Option String :=
  (hs.find? (fun kv => validate_header_raises kv)).map (fun kv => kv.1)

/-- Model of `Request.validate_url` as written in the source: it matches the URL
against `_VALID_HEADER_REGEX` (not `_VALID_URL_REGEX`, which is defined
but never used), and raises `InvalidURLError` iff that match fails
(`true` = raises). -/
def validate_url_raises (url : String) : Bool :=
  !headerValueMatches url

/-! ### JSON syntax validity (`json.loads` succeeding on a string)

An executable recursive-descent checker for the grammar accepted by
Python `json.loads`: RFC 8259 JSON plus the constants `NaN`,
`Infinity` and `-Infinity`; strings are double-quoted with the usual
escapes and (strict mode) no raw control characters below 0x20; numbers
are `-?(0|[1-9][0-9]*)(\.[0-9]+)?([eE][+-]?[0-9]+)?`.  The checker
consumes a prefix and returns the rest; validity requires the whole
string (modulo surrounding JSON whitespace) to be consumed. -/

/-- JSON insignificant whitespace. -/
def jWs (cs : List Char) : List Char :=
  cs.dropWhile (fun c => c = ' ' || c = '\t' || c = '\n' || c = '\r')

/-- Hexadecimal digit. -/
def jHex (c : Char) : Bool :=
  c.isDigit || ('a' ≤ c && c ≤ 'f') || ('A' ≤ c && c ≤ 'F')

/-- Consume the tail of a JSON string (the opening quote has been read). -/
def jStrTail : Nat → List Char → Option (List Char)
  | 0, _ => none
  | _ + 1, [] => none
  | n + 1, c :: cs =>
    if c = '"' then some cs
    else if c = '\\' then
      match cs with
      | [] => none
      | e :: cs2 =>
        if e = '"' || e = '\\' || e = '/' || e = 'b' || e = 'f' || e = 'n' || e = 'r' ||
            e = 't' then jStrTail n cs2
        else if e = 'u' then
          match cs2 with
          | h1 :: h2 :: h3 :: h4 :: cs3 =>
            if jHex h1 && jHex h2 && jHex h3 && jHex h4 then jStrTail n cs3 else none
          | _ => none
        else none
    else if c.val < 32 then none else jStrTail n cs

/-- Consume an expected literal word. -/
def jLit : List Char → List Char → Option (List Char)
  | [], cs => some cs
  | l :: ls, c :: cs => if c = l then jLit ls cs else none
  | _ :: _, [] => none

/-- Consume a JSON number starting at a digit or already past a minus sign;
`signSeen` tells whether a minus sign was consumed. -/
def jNumCore (cs : List Char) : Option (List Char) :=
  let intRest : Option (List Char) :=
    match cs with
    | '0' :: r => some r
    | c :: r => if c.isDigit && c ≠ '0' then some (r.dropWhile Char.isDigit) else none
    | [] => none
  match intRest with
  | none => none
  | some r1 =>
    let r2 : Option (List Char) :=
      match r1 with
      | '.' :: d :: r => if d.isDigit then some (r.dropWhile Char.isDigit) else none
      | _ => some r1
    match r2 with
    | none => none
    | some r2v =>
      match r2v with
      | e :: rest =>
        if e = 'e' || e = 'E' then
          match rest with
          | s :: d :: r =>
            if (s = '+' || s = '-') && d.isDigit then some (r.dropWhile Char.isDigit)
            else if s.isDigit then some ((d :: r).dropWhile Char.isDigit)
            else none
          | [d] => if d.isDigit then some [] else none
          | [] => none
        else some r2v
      | [] => some r2v

mutual

/-- Consume one JSON value. -/
def jVal : Nat → List Char → Option (List Char)
  | 0, _ => none
  | n + 1, cs =>
    match cs with
    | [] => none
    | c :: rest =>
      if c = '"' then jStrTail (rest.length + 1) rest
      else if c = '{' then
        match jWs rest with
        | '}' :: r2 => some r2
        | cs2 => jMembers n cs2
      else if c = '[' then
        match jWs rest with
        | ']' :: r2 => some r2
        | cs2 => jItems n cs2
      else if c = 't' then jLit ['r', 'u', 'e'] rest
      else if c = 'f' then jLit ['a', 'l', 's', 'e'] rest
      else if c = 'n' then jLit ['u', 'l', 'l'] rest
      else if c = 'N' then jLit ['a', 'N'] rest
      else if c = 'I' then jLit ['n', 'f', 'i', 'n', 'i', 't', 'y'] rest
      else if c = '-' then
        match rest with
        | 'I' :: r2 => jLit ['n', 'f', 'i', 'n', 'i', 't', 'y'] r2
        | _ => jNumCore rest
      else jNumCore cs

/-- Consume the members of a JSON object, positioned at a key string;
ends after consuming the closing brace. -/
def jMembers : Nat → List Char → Option (List Char)
  | 0, _ => none
  | n + 1, cs =>
    match cs with
    | '"' :: r =>
      match jStrTail (r.length + 1) r with
      | none => none
      | some r2 =>
        match jWs r2 with
        | ':' :: r3 =>
          match jVal n (jWs r3) with
          | none => none
          | some r4 =>
            match jWs r4 with
            | ',' :: r5 => jMembers n (jWs r5)
            | '}' :: r5 => some r5
            | _ => none
        | _ => none
    | _ => none

/-- Consume the items of a JSON array, positioned at a value; ends after
consuming the closing bracket. -/
def jItems : Nat → List Char → Option (List Char)
  | 0, _ => none
  | n + 1, cs =>
    match jVal n cs with
    | none => none
    | some r =>
      match jWs r with
      | ',' :: r2 => jItems n (jWs r2)
      | ']' :: r2 => some r2
      | _ => none

end

/-- Model of `Request.validate_json` succeeding: `json.loads(s)` parses. -/
def jsonValid (s : String) : Bool :=
  match jVal (s.data.length + 1) (jWs s.data) with
  | some r => (jWs r).isEmpty
  | none => false

/-! ### The HTTP request wrapper (`Request.do_request`)

The network call itself (`urllib.request.urlopen`) is abstracted as a
`TransportOutcome` parameter: success, an `HTTPError` (carrying an HTTP
status code, a reason and response headers) or a `URLError`
(name-resolution/connection failure, carrying only a reason).  Header
dictionaries are insertion-ordered association lists.  Because Python
passes the caller-side dict by reference, `do_request` returns, next to its
result, the contents of the caller-side dictionary after the call. -/

/-- A header mapping (Python `Dict[str, str]`, insertion ordered). -/
abbrev Headers := List (String × String)

/-- Python `d[k] = v`: overwrite in place if the key exists, else append. -/
def pyDictSet (d : Headers) (k v : String) : Headers :=
  if d.any (fun p => p.1 = k) then d.map (fun p => if p.1 = k then (k, v) else p)
  else d ++ [(k, v)]

/-- The class `Response` of the source: status code, optional body,
headers. -/
structure Response where
  status_code : Int
  body : Option String
  headers : Headers
deriving DecidableEq, Repr

/-- Outcome of the underlying `urllib.request.urlopen` call. -/
inductive TransportOutcome where
  | success (status : Int) (body : String) (respHeaders : Headers)
  | httpError (code : Int) (reason : String) (respHeaders : Headers)
  | urlError (reason : String)
deriving DecidableEq, Repr

/-- The exceptions `do_request` can raise (the two validation errors;
`InvalidURLError` is never raised there because `validate_url` is never
called). -/
inductive ReqError where
  | invalidHeader (name : String)
  | invalidJSON
deriving DecidableEq, Repr

/-- Python truthiness of the optional body string (`if body_json:`). -/
def bodyTruthy : Option String → Bool
  | none => false
  | some s => !s.data.isEmpty

/-- Build the `Response` from the transport outcome, as the
`try/except` of `do_request` does; `hLocal` is the wrapper (possibly
mutated) request-header dict, which the `URLError` branch reuses as the
response headers. -/
def mkResponse (outcome : TransportOutcome) (hLocal : Headers) : Response :=
  match outcome with
  | .success status body respHeaders => ⟨status, some body, respHeaders⟩
  | .httpError code reason respHeaders => ⟨code, some reason, respHeaders⟩
  | .urlError reason => ⟨101, some reason, hLocal⟩

/-- Model of `Request.do_request`.  Mirrors the source line by line:
`if not headers: headers = {}` (so a `None` or empty dict is replaced by a
fresh local dict and the caller-side dict is never touched), else
`validate_headers`; then, if the body is truthy, set `Content-Type` on the
(shared!) dict and `validate_json`; finally perform the transport call and
map errors to a `Response`.  Returns the result together with the contents
of the caller-side dictionary after the call (`headers0.getD []` when the
caller passed none). -/
def do_request (method url : String) (outcome : TransportOutcome)
    (body_json : Option String) (headers0 : Option Headers) :
    Except ReqError Response × Headers :=
  let caller := headers0.getD []
  let shared := !caller.isEmpty
  match (if caller.isEmpty then none else firstBadHeader caller) with
  | some name => (.error (.invalidHeader name), caller)
  | none =>
    if bodyTruthy body_json then
      let h := pyDictSet caller "Content-Type" "application/json"
      let callerAfter := if shared then h else caller
      if jsonValid (body_json.getD "") then (.ok (mkResponse outcome h), callerAfter)
      else (.error .invalidJSON, callerAfter)
    else (.ok (mkResponse outcome caller), caller)

/-- The wrapper request-header dict at the time of the transport call:
the caller-side headers with `Content-Type: application/json` added when a
truthy body is present. -/
def localHeadersAfter (body_json : Option String) (caller : Headers) : Headers :=
  if bodyTruthy body_json then pyDictSet caller "Content-Type" "application/json" else caller

/-! ### Datetimes (`DateTimeUtils`)

`PyDT` carries the civil fields of a Python `datetime`; `tzSec` is the
fixed UTC offset in seconds of an aware value (`none` = naive).  The
process-local timezone, which `astimezone` consults when applied to a
naive datetime, is an explicit parameter `tzMin` (minutes east of UTC,
`|tzMin| < 1440` for every real timezone).  Python year bounds
`MINYEAR = 1 ≤ year ≤ 9999 = MAXYEAR` are enforced wherever the source
constructs a datetime (an out-of-range result models the
`OverflowError`/`ValueError` Python would raise). -/

/-- A Python `datetime` value. -/
structure PyDT where
  year : Nat
  month : Nat
  day : Nat
  hour : Nat
  minute : Nat
  second : Nat
  micro : Nat
  tzSec : Option Int
deriving DecidableEq, Repr

/-- Gregorian leap year. -/
def isLeap (y : Nat) : Bool := y % 4 = 0 && (y % 100 ≠ 0 || y % 400 = 0)

/-- Number of days of a month (`m` between 1 and 12). -/
def daysInMonth (y m : Nat) : Nat :=
  if m = 2 then (if isLeap y then 29 else 28)
  else if m = 4 || m = 6 || m = 9 || m = 11 then 30
  else 31

/-- The next civil day. -/
def nextDay : Nat × Nat × Nat → Nat × Nat × Nat
  | (y, m, d) =>
    if d < daysInMonth y m then (y, m, d + 1)
    else if m < 12 then (y, m + 1, 1)
    else (y + 1, 1, 1)

/-- The previous civil day (month arithmetic; `(1,1,1)` underflows to the
out-of-range year 0, which the caller-side year-range check rejects). -/
def prevDay : Nat × Nat × Nat → Nat × Nat × Nat
  | (y, m, d) =>
    if 1 < d then (y, m, d - 1)
    else if 1 < m then (y, m - 1, daysInMonth y (m - 1))
    else (y - 1, 12, 31)

/-- Iterate a day-step function. -/
def iterDays (f : Nat × Nat × Nat → Nat × Nat × Nat) : Nat → Nat × Nat × Nat → Nat × Nat × Nat
  | 0, d => d
  | n + 1, d => iterDays f n (f d)

/-- Move a civil date by a (signed) number of days. -/
def addDaysCivil (d : Nat × Nat × Nat) (i : Int) : Nat × Nat × Nat :=
  if 0 ≤ i then iterDays nextDay i.toNat d else iterDays prevDay (-i).toNat d

/-- Shift a datetime by `delta` seconds (exact datetime arithmetic as in
Python `astimezone` conversion and `timedelta` addition); the result is
an aware UTC value.  `none` models Python `OverflowError` when the
result leaves the year range 1..9999. -/
def shiftSeconds (d : PyDT) (delta : Int) : Option PyDT :=
  let t : Int := (d.hour * 3600 + d.minute * 60 + d.second : Nat) + delta
  let dd := t.ediv 86400
  let n := (t.emod 86400).toNat
  let ymd := addDaysCivil (d.year, d.month, d.day) dd
  if 1 ≤ ymd.1 && ymd.1 ≤ 9999 then
    some { year := ymd.1, month := ymd.2.1, day := ymd.2.2, hour := n / 3600,
           minute := n % 3600 / 60, second := n % 60, micro := d.micro, tzSec := some 0 }
  else none

/-- Numeric value of a decimal digit. -/
def digitVal (c : Char) : Nat := c.toNat - 48

/-- Read exactly two decimal digits. -/
def read2 : List Char → Option (Nat × List Char)
  | a :: b :: r => if a.isDigit && b.isDigit then some (digitVal a * 10 + digitVal b, r) else none
  | _ => none

/-- Read exactly four decimal digits. -/
def read4 : List Char → Option (Nat × List Char)
  | a :: b :: c :: d :: r =>
    if a.isDigit && b.isDigit && c.isDigit && d.isDigit then
      some (digitVal a * 1000 + digitVal b * 100 + digitVal c * 10 + digitVal d, r)
    else none
  | _ => none

/-- Final step of bare-date parsing: no unconverted data may remain and
the constructed `date` is range-checked (year 1..9999 as the `datetime`
constructor enforces, day against the month length). -/
def mkBareChecked (y m d : Nat) (rest : List Char) : Option PyDT :=
  if rest.isEmpty && 1 ≤ y && y ≤ 9999 && 1 ≤ m && m ≤ 12 && 1 ≤ d && d ≤ daysInMonth y m then
    some ⟨y, m, d, 0, 0, 0, 0, none⟩
  else none

/-- Read one or two decimal digits, greedily (the `_strptime` patterns
for `%m`/`%d` allow one- or two-digit values; out-of-range values are
rejected afterwards exactly as the overall regex-plus-`date`-construction
does). -/
def read12 : List Char → Option (Nat × List Char)
  | a :: b :: r =>
    if a.isDigit && b.isDigit then some (digitVal a * 10 + digitVal b, r)
    else if a.isDigit then some (digitVal a, b :: r)
    else none
  | [a] => if a.isDigit then some (digitVal a, []) else none
  | [] => none

/-- Model of `datetime.strptime(s, %Y-%m-%d)` followed by `date` construction:
four year digits, dash, one- or two-digit month (the `_strptime` patterns
`1[0-2]|0[1-9]|[1-9]`), dash, one- or two-digit day
(`3[01]|[12]\d|0[1-9]|[1-9]`), nothing else; then the constructed date is
range-checked (year 1..9999, day against the month length). -/
def parseBareDate (s : String) : Option PyDT :=
  match read4 s.data with
  | none => none
  | some (y, r1) =>
    match r1 with
    | [] => none
    | c1 :: r2 =>
      if c1 = '-' then
        match read12 r2 with
        | none => none
        | some (m, r3) =>
          match r3 with
          | [] => none
          | c2 :: r4 =>
            if c2 = '-' then
              match read12 r4 with
              | none => none
              | some (d, r5) => mkBareChecked y m d r5
            else none
      else none

/-- Model of `DateTimeUtils.is_date_string`. -/
def is_date_string (s : String) : Bool := (parseBareDate s).isSome

/-- Parse the time-of-day part of an ISO string: `HH[:MM[:SS[.fff|.ffffff]]]`;
returns the fields and the unconsumed rest (which must then be empty or a
timezone offset). -/
def parseIsoTime (cs : List Char) : Option (Nat × Nat × Nat × Nat × List Char) :=
  match read2 cs with
  | none => none
  | some (hh, r1) =>
    match r1 with
    | ':' :: r2 =>
      match read2 r2 with
      | none => none
      | some (mm, r3) =>
        match r3 with
        | ':' :: r4 =>
          match read2 r4 with
          | none => none
          | some (ss, r5) =>
            match r5 with
            | '.' :: r6 =>
              let frac := r6.takeWhile Char.isDigit
              if frac.length = 3 || frac.length = 6 then
                some (hh, mm, ss, (frac.foldl (fun a c => a * 10 + digitVal c) 0) *
                  (if frac.length = 3 then 1000 else 1), r6.drop frac.length)
              else none
            | _ => some (hh, mm, ss, 0, r5)
        | _ => some (hh, mm, 0, 0, r3)
    | _ => some (hh, 0, 0, 0, r1)

/-- Parse a trailing UTC-offset `±HH:MM[:SS[.ffffff]]` (a `Z` suffix is
NOT accepted by `fromisoformat` before Python 3.11).  Returns the offset
in seconds.  The offset must be strictly shorter than one day
(requirement of `timezone`). -/
def parseIsoTz (cs : List Char) : Option Int :=
  match cs with
  | sign :: r0 =>
    if sign = '+' || sign = '-' then
      match read2 r0 with
      | none => none
      | some (th, r1) =>
        match r1 with
        | ':' :: r2 =>
          match read2 r2 with
          | none => none
          | some (tm, r3) =>
            let secs : Option Nat :=
              match r3 with
              | [] => some (th * 3600 + tm * 60)
              | ':' :: r4 =>
                match read2 r4 with
                | none => none
                | some (ts, r5) =>
                  match r5 with
                  | [] => some (th * 3600 + tm * 60 + ts)
                  | '.' :: r6 =>
                    if r6.length = 6 && r6.all Char.isDigit then
                      some (th * 3600 + tm * 60 + ts)
                    else none
                  | _ => none
              | _ => none
            match secs with
            | none => none
            | some n =>
              if n < 86400 then some (if sign = '-' then -(n : Int) else (n : Int))
              else none
        | _ => none
    else none
  | [] => none

/-- Model of `datetime.fromisoformat` (the pre-3.11 grammar):
`YYYY-MM-DD[*HH[:MM[:SS[.fff[fff]]]][±HH:MM[:SS[.ffffff]]]]`, where `*`
is an arbitrary single separator character; date and time components are
range-checked exactly as the `datetime` constructor does. -/
def fromisoformat (s : String) : Option PyDT :=
  match read4 s.data with
  | none => none
  | some (y, r1) =>
    match r1 with
    | '-' :: r2 =>
      match read2 r2 with
      | none => none
      | some (m, r3) =>
        match r3 with
        | '-' :: r4 =>
          match read2 r4 with
          | none => none
          | some (d, r5) =>
            if 1 ≤ y && y ≤ 9999 && 1 ≤ m && m ≤ 12 && 1 ≤ d && d ≤ daysInMonth y m then
              match r5 with
              | [] => some ⟨y, m, d, 0, 0, 0, 0, none⟩
              | _ :: r6 =>
                match parseIsoTime r6 with
                | none => none
                | some (hh, mm, ss, micro, r7) =>
                  if hh ≤ 23 && mm ≤ 59 && ss ≤ 59 then
                    match r7 with
                    | [] => some ⟨y, m, d, hh, mm, ss, micro, none⟩
                    | _ =>
                      match parseIsoTz r7 with
                      | none => none
                      | some off => some ⟨y, m, d, hh, mm, ss, micro, some off⟩
                  else none
            else none
        | _ => none
    | _ => none

/-- Model of `DateTimeUtils.is_iso8601_datetime_string`. -/
def is_iso8601_datetime_string (s : String) : Bool := (fromisoformat s).isSome

/-- Zero-pad a number to two digits (`strftime` `%m`/`%d`/`%H`/`%M`/`%S`). -/
def pad2 (n : Nat) : String := if n < 10 then "0" ++ toString n else toString n

/-- Zero-pad a number to four digits (`strftime` `%Y`; zero-padding of
years below 1000 is what CPython documents, though it is platform
dependent — no statement below involves such years). -/
def pad4 (n : Nat) : String :=
  if n < 10 then "000" ++ toString n
  else if n < 100 then "00" ++ toString n
  else if n < 1000 then "0" ++ toString n
  else toString n

/-- Model of `DateTimeUtils.to_iso8601_format`: `strftime(%Y-%m-%dT%H:%M:%SZ)`.
Formats the wall-clock fields as they stand (no timezone conversion) and
appends a literal `Z`. -/
def to_iso8601_format (d : PyDT) : String :=
  pad4 d.year ++ "-" ++ pad2 d.month ++ "-" ++ pad2 d.day ++ "T" ++ pad2 d.hour ++ ":" ++
    pad2 d.minute ++ ":" ++ pad2 d.second ++ "Z"

/-- Model of `DateTimeUtils.get_datetime_utc_from_date`:
`strptime(date, %Y-%m-%d).astimezone(timezone.utc)`.  The naive
midnight is interpreted in the process-local timezone (`tzMin` minutes
east of UTC) and converted to UTC, i.e. shifted by `-tzMin` minutes. -/
def get_datetime_utc_from_date (tzMin : Int) (date : String) : Option PyDT :=
  (parseBareDate date).bind (fun d => shiftSeconds d (-(tzMin * 60)))

/-- Model of `DateTimeUtils.get_start_datetime_from_date`. -/
def get_start_datetime_from_date (tzMin : Int) (date : String) : Option String :=
  if is_date_string date then
    (get_datetime_utc_from_date tzMin date).map to_iso8601_format
  else
    (fromisoformat date).map to_iso8601_format

/-- Model of `DateTimeUtils.get_end_datetime_from_date`: on a bare date, the UTC
conversion of local midnight plus `timedelta(hours=23, minutes=59,
seconds=59)` = 86399 seconds. -/
def get_end_datetime_from_date (tzMin : Int) (date : String) : Option String :=
  if is_date_string date then
    ((get_datetime_utc_from_date tzMin date).bind
      (fun d => shiftSeconds d 86399)).map to_iso8601_format
  else
    (fromisoformat date).map to_iso8601_format

/-! ### GitHub URL and branch validation (`GithubUtils`)

The URL regex (compiled with `re.IGNORECASE`) is
`^https://github.com/[a-z\d](?:[a-z\d]|-(?=[a-z\d])){0,38}/[-a-z\d_.]{1,98}/?$`.
Note two Python quirks that the model reproduces faithfully:
* the dot in `github.com` is an UNESCAPED regex dot, i.e. it matches any
  single character other than a newline;
* the final `$` also matches just before one trailing newline.
The repetition bodies can never consume the delimiter that follows them
(`/` is in no class, and a hyphen is taken only when an alphanumeric
follows), so the greedy scan below is exactly Python backtracking
match.  The branch regex source text (as a Python string literal) reaches `re` as
`^[^\s\\]+$`: one or more characters that are neither whitespace nor a
backslash, then `$`. -/

/-- One literal token of a pattern: a (lowercase) character matched
case-insensitively, or `none` for the unescaped-dot wildcard (any
character except a newline). -/
def stripPat : List (Option Char) → List Char → Option (List Char)
  | [], cs => some cs
  | _ :: _, [] => none
  | p :: ps, c :: cs =>
    match p with
    | some l => if c.toLower = l then stripPat ps cs else none
    | none => if c = '\n' then none else stripPat ps cs

/-- The literal part `https://github.com/` of the URL regex, with the
unescaped dot as a wildcard. -/
def urlLitPat : List (Option Char) :=
  [some 'h', some 't', some 't', some 'p', some 's', some ':', some '/', some '/',
   some 'g', some 'i', some 't', some 'h', some 'u', some 'b', none,
   some 'c', some 'o', some 'm', some '/']

/-- The same literal with the dot taken literally (the shape the spec
describes). -/
def ghLitPat : List (Option Char) :=
  [some 'h', some 't', some 't', some 'p', some 's', some ':', some '/', some '/',
   some 'g', some 'i', some 't', some 'h', some 'u', some 'b', some '.',
   some 'c', some 'o', some 'm', some '/']

/-- Greedy scan of `(?:[a-z\d]|-(?=[a-z\d])){0,38}`: consume up to `n`
characters, each an alphanumeric or a hyphen followed (lookahead) by an
alphanumeric; returns (consumed, rest). -/
def munchOwner : Nat → List Char → List Char × List Char
  | 0, cs => ([], cs)
  | _ + 1, [] => ([], [])
  | n + 1, c :: cs =>
    if alnumCI c then (c :: (munchOwner n cs).1, (munchOwner n cs).2)
    else if c = '-' then
      match cs with
      | d :: _ =>
        if alnumCI d then (c :: (munchOwner n cs).1, (munchOwner n cs).2)
        else ([], c :: cs)
      | [] => ([], c :: cs)
    else ([], c :: cs)

/-- Greedy scan of `[-a-z\d_.]{1,98}` (upper bound `n`): consume up to
`n` repository-name characters; returns (consumed, rest). -/
def munchRepo : Nat → List Char → List Char × List Char
  | 0, cs => ([], cs)
  | _ + 1, [] => ([], [])
  | n + 1, c :: cs =>
    if repoOk c then (c :: (munchRepo n cs).1, (munchRepo n cs).2)
    else ([], c :: cs)

/-- Core of the URL regex: literal prefix, owner (`[a-z\d]` then at most
38 further owner characters), a slash, then 1..98 repository characters.
Returns the unconsumed rest (before the optional trailing slash). -/
def matchCore (cs : List Char) : Option (List Char) :=
  match stripPat urlLitPat cs with
  | none => none
  | some rest =>
    match rest with
    | [] => none
    | c :: cs1 =>
      if alnumCI c then
        match (munchOwner 38 cs1).2 with
        | [] => none
        | s :: cs2 =>
          if s = '/' then
            if (munchRepo 98 cs2).1.isEmpty then none else some (munchRepo 98 cs2).2
          else none
      else none

/-- The endings `/?$` allows: nothing, one slash, and/or one final
newline (Python `$`). -/
def endSlashNl : List Char → Bool
  | [] => true
  | [c] => c = '\n' || c = '/'
  | [c1, c2] => c1 = '/' && c2 = '\n'
  | _ :: _ :: _ :: _ => false

/-- Model of `GithubUtils.is_correct_github_url`. -/
def is_correct_github_url (url : String) : Bool :=
  match matchCore url.data with
  | some r => endSlashNl r
  | none => false

/-- GitHub-username shape of the regex: a nonempty chunk of at most 39
characters, starting with an alphanumeric, hyphens only between
alphanumerics. -/
def ownerTailOk : List Char → Bool
  | [] => true
  | c :: rest =>
    if alnumCI c then ownerTailOk rest
    else if c = '-' then
      match rest with
      | d :: _ => alnumCI d && ownerTailOk rest
      | [] => false
    else false

/-- An owner segment as the spec describes it. -/
def ownerChunk (l : List Char) : Bool :=
  match l with
  | [] => false
  | c :: t => alnumCI c && ownerTailOk t && decide (l.length ≤ 39)

/-- A repository segment as the spec describes it. -/
def repoChunk (l : List Char) : Bool :=
  !l.isEmpty && l.all repoOk && decide (l.length ≤ 98)

/-- Modelled from the spec: the shape `https://github.com/<owner>/<repo>`
(owner: GitHub username rules; repo: the permitted character set),
optionally with one trailing slash — with a literal dot in `github.com`
and no trailing newline.  Used to compare the spec wording with the
recognizer the code implements. -/
def specGithubUrlShape (s : String) : Bool :=
  match stripPat ghLitPat s.data with
  | none => false
  | some rest =>
    match splitOnSlash rest with
    | [o, rep] => ownerChunk o && repoChunk rep
    | [o, rep, t] => ownerChunk o && repoChunk rep && t.isEmpty
    | _ => false

/-- The spec shape relaxed exactly as the regex of the code forces: the dot of
`github.com` may be any non-newline character. -/
def relaxedGithubUrlShape (s : String) : Bool :=
  match stripPat urlLitPat s.data with
  | none => false
  | some rest =>
    match splitOnSlash rest with
    | [o, rep] => ownerChunk o && repoChunk rep
    | [o, rep, t] => ownerChunk o && repoChunk rep && t.isEmpty
    | _ => false

/-- A branch character accepted by `[^\s\\]`: neither whitespace nor a
backslash. -/
def branchCharOk (c : Char) : Bool := !isPySpace c && c ≠ '\\'

/-- Model of `GithubUtils.is_correct_github_branch_name`: `re.match` of the branch regex..
Greedy scan of the class characters, then `$` (end or one final
newline). -/
def is_correct_github_branch_name (b : String) : Bool :=
  match b.data with
  | [] => false
  | c :: cs => branchCharOk c && endNlOk (cs.dropWhile branchCharOk)

/-- Model of `GithubUtils.get_repository_owner_and_name_from_url`:
`url.rstrip('/').split('/')`, then the last two segments; `none` models
the `IndexError` when fewer than two segments exist. -/
def get_repository_owner_and_name_from_url (url : String) : Option (String × String) :=
  match lastTwo (splitOnSlash (rstripSlash url.data)) with
  | some (o, r) => some (⟨o⟩, ⟨r⟩)
  | none => none

/-! ### The argument parser (`GithubAnalyzerArgumentParser`) -/

/-- The four raw command-line string arguments. -/
structure CliArgs where
  url : String
  startDate : String
  endDate : String
  branch : String
deriving DecidableEq, Repr

/-- The class `GithubAnalyzerArgs` of the source. -/
structure GithubAnalyzerArgs where
  repository_owner : String
  repository_name : String
  start_analysis_date : String
  end_analysis_date : String
  branch : String
deriving DecidableEq, Repr

/-- The acceptance condition of `validate_args`: every check passes, so
none of the `parser.error` (print-usage-and-exit) calls fires.  Note that
the date-order check compares the RAW argument strings. -/
def validateAccepts (a : CliArgs) : Bool :=
  is_correct_github_url a.url &&
  (is_iso8601_datetime_string a.startDate || is_date_string a.startDate) &&
  (is_iso8601_datetime_string a.endDate || is_date_string a.endDate) &&
  is_correct_github_branch_name a.branch &&
  pyStrLe a.startDate a.endDate

/-- Model of `validate_args`: on success the arguments are stored as
`validated_args`; `none` models the parser error-and-exit path. -/
def validate_args (a : CliArgs) : Option CliArgs :=
  if validateAccepts a then some a else none

/-- Model of `get_serialized_args`, taking the `validated_args` attribute as an
`Option` (`none` = the attribute was never set, so the `assert` fires,
modelled by the `none` result).  `tzMin` is the process-local timezone
consulted by the date normalization. -/
def get_serialized_args (tzMin : Int) (validated : Option CliArgs) :
    Option GithubAnalyzerArgs :=
  match validated with
  | none => none
  | some a =>
    match get_repository_owner_and_name_from_url a.url,
        get_start_datetime_from_date tzMin a.startDate,
        get_end_datetime_from_date tzMin a.endDate with
    | some (o, r), some s, some e => some ⟨o, r, s, e, a.branch⟩
    | _, _, _ => none

/-- The escape hatch of the header regex: a value of the form
(non-whitespace)(no CR or LF)*(single final newline).  Such a value
contains an embedded newline yet matches `\S[^\r\n]*$` because `$` also
matches just before a final newline. -/
def trailingNlValue (v : String) : Bool :=
  match v.data with
  | [] => false
  | c :: cs =>
    !isPySpace c && !cs.isEmpty &&
      cs.dropLast.all (fun d => d ≠ '\r' && d ≠ '\n') && cs.getLast? = some '\n'

/-! ### Helper lemmas: splitting, last-two, rstrip -/

theorem splitOnSlash_cons (c : Char) (cs : List Char) :
    splitOnSlash (c :: cs) =
      match splitOnSlash cs with
      | [] => [[c]]
      | h :: t => if c = '/' then [] :: h :: t else (c :: h) :: t := rfl

theorem splitOnSlash_ne_nil (cs : List Char) : splitOnSlash cs ≠ [] := by
  cases cs with
  | nil => simp [splitOnSlash]
  | cons c cs =>
    rw [splitOnSlash_cons]
    cases hs : splitOnSlash cs with
    | nil => exact absurd hs (splitOnSlash_ne_nil cs)
    | cons h1 t =>
      by_cases hc : c = '/' <;> simp [hc]

theorem splitOnSlash_append_slash (xs ys : List Char) :
    splitOnSlash (xs ++ '/' :: ys) = splitOnSlash xs ++ splitOnSlash ys := by
  induction xs with
  | nil =>
    rw [List.nil_append, splitOnSlash_cons]
    cases hs : splitOnSlash ys with
    | nil => exact absurd hs (splitOnSlash_ne_nil ys)
    | cons h1 t => simp [splitOnSlash]
  | cons c xs ih =>
    rw [List.cons_append, splitOnSlash_cons, ih, splitOnSlash_cons]
    cases hs : splitOnSlash xs with
    | nil => exact absurd hs (splitOnSlash_ne_nil xs)
    | cons h1 t =>
      by_cases hc : c = '/' <;> simp [hc]

theorem splitOnSlash_slashFree {l : List Char} (h : ∀ c ∈ l, c ≠ '/') :
    splitOnSlash l = [l] := by
  induction l with
  | nil => rfl
  | cons c cs ih =>
    have hc : c ≠ '/' := h c (List.mem_cons_self ..)
    rw [splitOnSlash_cons, ih (fun x hx => h x (List.mem_cons_of_mem _ hx))]
    simp [hc]

theorem splitOnSlash_length_ge_two {cs : List Char} (h : '/' ∈ cs) :
    2 ≤ (splitOnSlash cs).length := by
  induction cs with
  | nil => simp at h
  | cons c cs ih =>
    rw [splitOnSlash_cons]
    cases hs : splitOnSlash cs with
    | nil => exact absurd hs (splitOnSlash_ne_nil cs)
    | cons h1 t =>
      by_cases hc : c = '/'
      · simp [hc]
      · have hmem : '/' ∈ cs := by
          rcases List.mem_cons.mp h with h | h
          · exact absurd h.symm hc
          · exact h
        have h2 := ih hmem
        rw [hs] at h2
        simp only [if_neg hc]
        simp only [List.length_cons] at h2 ⊢
        omega

theorem lastTwo_append_pair (l : List (List Char)) (a b : List Char) :
    lastTwo (l ++ [a, b]) = some (a, b) := by
  induction l with
  | nil => rfl
  | cons x l ih =>
    rcases l with _ | ⟨y, l2⟩
    · rfl
    · rcases hl : l2 ++ [a, b] with _ | ⟨z, zs⟩
      · simp at hl
      · calc lastTwo ((x :: y :: l2) ++ [a, b]) = lastTwo ((y :: l2) ++ [a, b]) := by
              simp only [List.cons_append, hl]
              rfl
          _ = some (a, b) := ih

theorem lastTwo_isSome : ∀ l : List (List Char), 2 ≤ l.length → (lastTwo l).isSome := by
  intro l
  induction l with
  | nil => intro h; simp at h
  | cons x l ih =>
    intro h
    rcases l with _ | ⟨y, l2⟩
    · simp at h
    · rcases l2 with _ | ⟨z, l3⟩
      · rfl
      · exact ih (by simp only [List.length_cons]; omega)

theorem rstripSlash_eq_self {cs : List Char} (h : cs.getLast? ≠ some '/') :
    rstripSlash cs = cs := by
  unfold rstripSlash
  cases hr : cs.reverse with
  | nil =>
    have hcs : cs = [] := List.reverse_eq_nil_iff.mp hr
    subst hcs; rfl
  | cons c r =>
    have hcs : cs = r.reverse ++ [c] := by
      have := congrArg List.reverse hr
      simpa using this
    have hc : c ≠ '/' := by
      intro hceq
      apply h
      rw [hcs, hceq]
      simp
    rw [List.dropWhile_cons, if_neg (by simpa using hc), ← hr, List.reverse_reverse]

theorem rstripSlash_append_slash (cs : List Char) :
    rstripSlash (cs ++ ['/']) = rstripSlash cs := by
  unfold rstripSlash
  simp [List.dropWhile_cons]

/-! ### Helper lemmas: character classes and the URL-regex scanners -/

theorem bool_not_true {b : Bool} (h : ¬b = true) : b = false := by
  cases b
  · rfl
  · exact absurd rfl h

theorem alnumCI_ne_slash {c : Char} (h : alnumCI c = true) : c ≠ '/' := by
  intro hc; subst hc; exact absurd h (by decide)

theorem alnumCI_ne_nl {c : Char} (h : alnumCI c = true) : c ≠ '\n' := by
  intro hc; subst hc; exact absurd h (by decide)

theorem repoOk_ne_slash {c : Char} (h : repoOk c = true) : c ≠ '/' := by
  intro hc; subst hc; exact absurd h (by decide)

theorem repoOk_ne_nl {c : Char} (h : repoOk c = true) : c ≠ '\n' := by
  intro hc; subst hc; exact absurd h (by decide)

theorem munchOwner_alnum {c : Char} (h : alnumCI c = true) (n : Nat) (cs : List Char) :
    munchOwner (n + 1) (c :: cs) = (c :: (munchOwner n cs).1, (munchOwner n cs).2) := by
  simp [munchOwner, h]

theorem munchOwner_hyphen {d : Char} (hd : alnumCI d = true) (n : Nat) (cs : List Char) :
    munchOwner (n + 1) ('-' :: d :: cs) =
      ('-' :: (munchOwner n (d :: cs)).1, (munchOwner n (d :: cs)).2) := by
  simp [munchOwner, (show alnumCI '-' = false by decide), hd]

theorem munchOwner_append :
    ∀ (n : Nat) (cs : List Char), (munchOwner n cs).1 ++ (munchOwner n cs).2 = cs := by
  intro n
  induction n with
  | zero => intro cs; rfl
  | succ n ih =>
    intro cs
    cases cs with
    | nil => rfl
    | cons c cs =>
      by_cases h1 : alnumCI c
      · rw [munchOwner_alnum h1]
        simpa using ih cs
      · by_cases h2 : c = '-'
        · subst h2
          cases cs with
          | nil => rfl
          | cons d rest =>
            by_cases hd : alnumCI d
            · rw [munchOwner_hyphen hd]
              simpa using ih (d :: rest)
            · simp [munchOwner, (show alnumCI '-' = false by decide),
                bool_not_true hd]
        · simp [munchOwner, bool_not_true h1, h2]

theorem munchOwner_chars :
    ∀ (n : Nat) (cs : List Char) (x : Char), x ∈ (munchOwner n cs).1 →
      alnumCI x = true ∨ x = '-' := by
  intro n
  induction n with
  | zero => intro cs x hx; simp [munchOwner] at hx
  | succ n ih =>
    intro cs x hx
    cases cs with
    | nil => simp [munchOwner] at hx
    | cons c cs =>
      by_cases h1 : alnumCI c
      · rw [munchOwner_alnum h1] at hx
        rcases List.mem_cons.mp hx with h | h
        · exact Or.inl (h ▸ h1)
        · exact ih cs x h
      · by_cases h2 : c = '-'
        · subst h2
          cases cs with
          | nil => simp [munchOwner, (show alnumCI '-' = false by decide)] at hx
          | cons d rest =>
            by_cases hd : alnumCI d
            · rw [munchOwner_hyphen hd] at hx
              rcases List.mem_cons.mp hx with h | h
              · exact Or.inr h
              · exact ih (d :: rest) x h
            · simp [munchOwner, (show alnumCI '-' = false by decide),
                bool_not_true hd] at hx
        · simp [munchOwner, bool_not_true h1, h2] at hx

theorem munchOwner_len :
    ∀ (n : Nat) (cs : List Char), (munchOwner n cs).1.length ≤ n := by
  intro n
  induction n with
  | zero => intro cs; simp [munchOwner]
  | succ n ih =>
    intro cs
    cases cs with
    | nil => simp [munchOwner]
    | cons c cs =>
      by_cases h1 : alnumCI c
      · rw [munchOwner_alnum h1]
        simpa using Nat.succ_le_succ (ih cs)
      · by_cases h2 : c = '-'
        · subst h2
          cases cs with
          | nil => simp [munchOwner, (show alnumCI '-' = false by decide)]
          | cons d rest =>
            by_cases hd : alnumCI d
            · rw [munchOwner_hyphen hd]
              simpa using Nat.succ_le_succ (ih (d :: rest))
            · simp [munchOwner, (show alnumCI '-' = false by decide),
                bool_not_true hd]
        · simp [munchOwner, bool_not_true h1, h2]

theorem munchOwner_tailOk :
    ∀ (n : Nat) (cs : List Char),
      (∀ h, ((munchOwner n cs).2).head? = some h → alnumCI h = false) →
      ownerTailOk (munchOwner n cs).1 = true := by
  intro n
  induction n with
  | zero => intro cs _; rfl
  | succ n ih =>
    intro cs hrest
    cases cs with
    | nil => rfl
    | cons c cs =>
      by_cases h1 : alnumCI c
      · rw [munchOwner_alnum h1] at hrest ⊢
        have := ih cs (by simpa using hrest)
        simp [ownerTailOk, h1, this]
      · by_cases h2 : c = '-'
        · subst h2
          cases cs with
          | nil => rfl
          | cons d rest =>
            by_cases hd : alnumCI d
            · rw [munchOwner_hyphen hd] at hrest ⊢
              have hr := ih (d :: rest) (by simpa using hrest)
              cases n with
              | zero =>
                exact absurd (hrest d (by simp [munchOwner])) (by simp [hd])
              | succ n2 =>
                rw [munchOwner_alnum hd] at hr ⊢
                simp [ownerTailOk, (show alnumCI '-' = false by decide), hd] at hr ⊢
                exact hr
            · have hstop : munchOwner (n + 1) ('-' :: d :: rest) = ([], '-' :: d :: rest) := by
                simp [munchOwner, (show alnumCI '-' = false by decide), bool_not_true hd]
              rw [hstop]
              rfl
        · have hstop : munchOwner (n + 1) (c :: cs) = ([], c :: cs) := by
            simp [munchOwner, bool_not_true h1, h2]
          rw [hstop]
          rfl

theorem munchOwner_exact :
    ∀ (t : List Char) (n : Nat) (z : List Char), ownerTailOk t = true → t.length ≤ n →
      munchOwner n (t ++ '/' :: z) = (t, '/' :: z) := by
  intro t
  induction t with
  | nil =>
    intro n z _ _
    cases n with
    | zero => rfl
    | succ n => simp [munchOwner, (show alnumCI '/' = false by decide)]
  | cons c t ih =>
    intro n z hok hlen
    cases n with
    | zero => simp at hlen
    | succ n =>
      by_cases h1 : alnumCI c
      · have hok' : ownerTailOk t = true := by simpa [ownerTailOk, h1] using hok
        rw [List.cons_append, munchOwner_alnum h1,
          ih n z hok' (by simpa using Nat.lt_succ_iff.mp (Nat.lt_of_lt_of_le (Nat.lt_succ_self _) hlen))]
      · by_cases h2 : c = '-'
        · subst h2
          cases t with
          | nil => simp [ownerTailOk, (show alnumCI '-' = false by decide)] at hok
          | cons d t2 =>
            have hdp : alnumCI d = true ∧ ownerTailOk (d :: t2) = true := by
              simpa [ownerTailOk, (show alnumCI '-' = false by decide),
                Bool.and_eq_true] using hok
            rw [List.cons_append, List.cons_append, munchOwner_hyphen hdp.1]
            rw [← List.cons_append, ih n z hdp.2 (by simpa using Nat.succ_le_succ_iff.mp hlen)]
        · simp [ownerTailOk, h1, h2] at hok

theorem munchRepo_eq (n : Nat) (c : Char) (cs : List Char) :
    munchRepo (n + 1) (c :: cs) =
      (if repoOk c then (c :: (munchRepo n cs).1, (munchRepo n cs).2) else ([], c :: cs)) := rfl

theorem munchRepo_append :
    ∀ (n : Nat) (cs : List Char), (munchRepo n cs).1 ++ (munchRepo n cs).2 = cs := by
  intro n
  induction n with
  | zero => intro cs; rfl
  | succ n ih =>
    intro cs
    cases cs with
    | nil => rfl
    | cons c cs =>
      rw [munchRepo_eq]
      by_cases h1 : repoOk c
      · simpa [h1] using ih cs
      · simp [h1]

theorem munchRepo_all :
    ∀ (n : Nat) (cs : List Char) (x : Char), x ∈ (munchRepo n cs).1 → repoOk x = true := by
  intro n
  induction n with
  | zero => intro cs x hx; simp [munchRepo] at hx
  | succ n ih =>
    intro cs x hx
    cases cs with
    | nil => simp [munchRepo] at hx
    | cons c cs =>
      rw [munchRepo_eq] at hx
      by_cases h1 : repoOk c
      · simp only [h1, if_true] at hx
        rcases List.mem_cons.mp hx with h | h
        · exact h ▸ h1
        · exact ih cs x h
      · simp [h1] at hx

theorem munchRepo_len :
    ∀ (n : Nat) (cs : List Char), (munchRepo n cs).1.length ≤ n := by
  intro n
  induction n with
  | zero => intro cs; simp [munchRepo]
  | succ n ih =>
    intro cs
    cases cs with
    | nil => simp [munchRepo]
    | cons c cs =>
      rw [munchRepo_eq]
      by_cases h1 : repoOk c
      · simpa [h1] using Nat.succ_le_succ (ih cs)
      · simp [h1]

theorem munchRepo_exact :
    ∀ (t : List Char) (n : Nat) (z : List Char),
      (∀ x ∈ t, repoOk x = true) → t.length ≤ n →
      (∀ h, z.head? = some h → repoOk h = false) →
      munchRepo n (t ++ z) = (t, z) := by
  intro t
  induction t with
  | nil =>
    intro n z _ _ hz
    cases n with
    | zero => rfl
    | succ n =>
      cases z with
      | nil => rfl
      | cons h zt =>
        rw [List.nil_append, munchRepo_eq, if_neg (by simp [hz h rfl])]
  | cons c t ih =>
    intro n z hall hlen hz
    cases n with
    | zero => simp at hlen
    | succ n =>
      rw [List.cons_append, munchRepo_eq,
        if_pos (hall c (List.mem_cons_self ..)),
        ih n z (fun x hx => hall x (List.mem_cons_of_mem _ hx))
          (by simpa using Nat.succ_le_succ_iff.mp hlen) hz]

theorem stripPat_sound :
    ∀ (pat : List (Option Char)) (cs rest : List Char),
      stripPat pat cs = some rest → ∃ p, cs = p ++ rest := by
  intro pat
  induction pat with
  | nil =>
    intro cs rest h
    exact ⟨[], by simpa [stripPat] using Option.some.inj h⟩
  | cons pc pat ih =>
    intro cs rest h
    cases cs with
    | nil => simp [stripPat] at h
    | cons c cs2 =>
      cases pc with
      | some l =>
        by_cases hc : c.toLower = l
        · have h' : stripPat pat cs2 = some rest := by simpa [stripPat, hc] using h
          obtain ⟨p, hp⟩ := ih cs2 rest h'
          exact ⟨c :: p, by simp [hp]⟩
        · simp [stripPat, hc] at h
      | none =>
        by_cases hc : c = '\n'
        · simp [stripPat, hc] at h
        · have h' : stripPat pat cs2 = some rest := by simpa [stripPat, hc] using h
          obtain ⟨p, hp⟩ := ih cs2 rest h'
          exact ⟨c :: p, by simp [hp]⟩

theorem stripPat_url_self (rest : List Char) :
    stripPat urlLitPat ("https://github.com/".data ++ rest) = some rest := rfl

theorem matchCore_sound {cs r : List Char} (h : matchCore cs = some r) :
    ∃ p c t1 t2,
      stripPat urlLitPat cs = some (c :: (t1 ++ '/' :: (t2 ++ r))) ∧
      cs = p ++ c :: (t1 ++ '/' :: (t2 ++ r)) ∧
      alnumCI c = true ∧ ownerTailOk t1 = true ∧ t1.length ≤ 38 ∧
      t2 ≠ [] ∧ (∀ x ∈ t2, repoOk x = true) ∧ t2.length ≤ 98 := by
  unfold matchCore at h
  cases hs : stripPat urlLitPat cs with
  | none => rw [hs] at h; exact absurd h (by simp)
  | some rest =>
    rw [hs] at h
    try dsimp only at h
    cases rest with
    | nil => simp at h
    | cons c cs1 =>
      try dsimp only at h
      by_cases hc : alnumCI c
      case neg => rw [if_neg hc] at h; simp at h
      case pos =>
        rw [if_pos hc] at h
        cases hr1 : (munchOwner 38 cs1).2 with
        | nil => rw [hr1] at h; simp at h
        | cons slash cs2 =>
          rw [hr1] at h
          try dsimp only at h
          by_cases hsl : slash = '/'
          · rw [if_pos hsl] at h
            subst hsl
            by_cases hemp : (munchRepo 98 cs2).1.isEmpty
            · rw [if_pos hemp] at h; simp at h
            · rw [if_neg hemp] at h
              have hrq : (munchRepo 98 cs2).2 = r := Option.some.inj h
              have hcs1 : cs1 = (munchOwner 38 cs1).1 ++ '/' :: cs2 := by
                rw [← hr1, munchOwner_append]
              have hcs2 : cs2 = (munchRepo 98 cs2).1 ++ r := by
                rw [← hrq, munchRepo_append]
              obtain ⟨p, hp⟩ := stripPat_sound urlLitPat cs _ hs
              refine ⟨p, c, (munchOwner 38 cs1).1, (munchRepo 98 cs2).1,
                ?_, ?_, hc, ?_, ?_, ?_, ?_, ?_⟩
              · rw [← hcs2, ← hcs1]
              · rw [hp, ← hcs2, ← hcs1]
              · refine munchOwner_tailOk 38 cs1 (fun x hx => ?_)
                rw [hr1] at hx
                simp only [List.head?_cons, Option.some.injEq] at hx
                subst hx
                decide
              · exact munchOwner_len 38 cs1
              · intro hnil
                rw [hnil] at hemp
                exact hemp rfl
              · exact munchRepo_all 98 cs2
              · exact munchRepo_len 98 cs2
          · rw [if_neg hsl] at h
            exact absurd h (by simp)

theorem matchCore_complete {o rep tail : List Char}
    (ho : ownerChunk o = true) (hrep : repoChunk rep = true)
    (htail : ∀ h, tail.head? = some h → repoOk h = false) :
    matchCore ("https://github.com/".data ++ (o ++ '/' :: (rep ++ tail))) = some tail := by
  obtain ⟨c, t1, rfl⟩ : ∃ c t1, o = c :: t1 := by
    cases o with
    | nil => simp [ownerChunk] at ho
    | cons c t1 => exact ⟨c, t1, rfl⟩
  have hoc := ho
  simp only [ownerChunk, Bool.and_eq_true, decide_eq_true_eq] at hoc
  obtain ⟨⟨hc1, hc2⟩, hc3⟩ := hoc
  obtain ⟨rc, rt, rfl⟩ : ∃ rc rt, rep = rc :: rt := by
    cases rep with
    | nil => simp [repoChunk] at hrep
    | cons rc rt => exact ⟨rc, rt, rfl⟩
  have hrc := hrep
  simp only [repoChunk, Bool.and_eq_true, decide_eq_true_eq, List.all_eq_true] at hrc
  obtain ⟨⟨hne, hall⟩, hlen98⟩ := hrc
  have hmo := munchOwner_exact t1 38 (rc :: (rt ++ tail)) hc2
    (by simp only [List.length_cons] at hc3; omega)
  have hmr := munchRepo_exact (rc :: rt) 98 tail hall hlen98 htail
  simp only [List.cons_append] at hmr
  unfold matchCore
  rw [stripPat_url_self]
  try dsimp only
  simp only [List.cons_append]
  try dsimp only
  rw [if_pos hc1, hmo]
  try dsimp only
  rw [if_pos rfl, hmr]
  simp

/-! ### Helper lemmas: dates and normalization -/

theorem mkBareChecked_fields {y m dd : Nat} {rest : List Char} {d : PyDT}
    (h : mkBareChecked y m dd rest = some d) :
    d = ⟨y, m, dd, 0, 0, 0, 0, none⟩ ∧ 1 ≤ y ∧ y ≤ 9999 := by
  unfold mkBareChecked at h
  split at h
  · rename_i hg
    simp only [Bool.and_eq_true, decide_eq_true_eq] at hg
    exact ⟨(Option.some.inj h).symm, hg.1.1.1.1.1.2, hg.1.1.1.1.2⟩
  · exact absurd h (by simp)

theorem parseBareDate_fields {s : String} {d : PyDT} (h : parseBareDate s = some d) :
    ∃ y m dd, d = ⟨y, m, dd, 0, 0, 0, 0, none⟩ ∧ 1 ≤ y ∧ y ≤ 9999 := by
  unfold parseBareDate at h
  repeat' split at h
  all_goals try exact absurd h (by simp)
  all_goals exact ⟨_, _, _, mkBareChecked_fields h⟩

theorem addDaysCivil_zero (p : Nat × Nat × Nat) : addDaysCivil p 0 = p := by
  simp [addDaysCivil, iterDays]

theorem shiftSeconds_bare_zero {y m dd mic : Nat} {tz : Option Int}
    (h1 : 1 ≤ y) (h2 : y ≤ 9999) :
    shiftSeconds ⟨y, m, dd, 0, 0, 0, mic, tz⟩ 0 = some ⟨y, m, dd, 0, 0, 0, mic, some 0⟩ := by
  simp only [shiftSeconds, Nat.zero_mul, Nat.mul_zero, Nat.add_zero, Nat.zero_add,
    Nat.cast_zero, Int.add_zero,
    (show Int.ediv 0 86400 = 0 by decide), (show Int.emod 0 86400 = 0 by decide),
    Int.toNat_zero, addDaysCivil_zero, Nat.zero_div, Nat.zero_mod]
  rw [if_pos (by simp [h1, h2])]

theorem shiftSeconds_bare_end {y m dd mic : Nat} {tz : Option Int}
    (h1 : 1 ≤ y) (h2 : y ≤ 9999) :
    shiftSeconds ⟨y, m, dd, 0, 0, 0, mic, tz⟩ 86399 = some ⟨y, m, dd, 23, 59, 59, mic, some 0⟩ := by
  simp only [shiftSeconds, Nat.zero_mul, Nat.mul_zero, Nat.add_zero, Nat.zero_add,
    Nat.cast_zero, Int.zero_add, addDaysCivil_zero,
    (show Int.ediv 86399 86400 = 0 by decide),
    (show Int.emod 86399 86400 = 86399 by decide),
    (show Int.toNat 86399 = 86399 by decide),
    (show (86399 : Nat) / 3600 = 23 by norm_num),
    (show (86399 : Nat) % 3600 / 60 = 59 by norm_num),
    (show (86399 : Nat) % 60 = 59 by norm_num)]
  rw [if_pos (by simp [h1, h2])]

theorem get_start_isSome_of_valid {s : String}
    (h : is_iso8601_datetime_string s = true ∨ is_date_string s = true) :
    (get_start_datetime_from_date 0 s).isSome = true := by
  by_cases hd : is_date_string s = true
  · unfold get_start_datetime_from_date
    rw [if_pos hd]
    obtain ⟨d, hds⟩ := Option.isSome_iff_exists.mp (by simpa [is_date_string] using hd)
    obtain ⟨y, m, dd, rfl, hy1, hy2⟩ := parseBareDate_fields hds
    unfold get_datetime_utc_from_date
    rw [hds]
    simp only [Option.some_bind]
    norm_num
    rw [shiftSeconds_bare_zero hy1 hy2]
    simp
  · unfold get_start_datetime_from_date
    rw [if_neg hd]
    have hi : is_iso8601_datetime_string s = true := h.resolve_right hd
    obtain ⟨d, hds⟩ := Option.isSome_iff_exists.mp
      (by simpa [is_iso8601_datetime_string] using hi)
    rw [hds]
    simp

theorem get_end_isSome_of_valid {s : String}
    (h : is_iso8601_datetime_string s = true ∨ is_date_string s = true) :
    (get_end_datetime_from_date 0 s).isSome = true := by
  by_cases hd : is_date_string s = true
  · unfold get_end_datetime_from_date
    rw [if_pos hd]
    obtain ⟨d, hds⟩ := Option.isSome_iff_exists.mp (by simpa [is_date_string] using hd)
    obtain ⟨y, m, dd, rfl, hy1, hy2⟩ := parseBareDate_fields hds
    unfold get_datetime_utc_from_date
    rw [hds]
    simp only [Option.some_bind]
    norm_num
    rw [shiftSeconds_bare_zero hy1 hy2]
    simp only [Option.some_bind]
    rw [shiftSeconds_bare_end hy1 hy2]
    simp
  · unfold get_end_datetime_from_date
    rw [if_neg hd]
    have hi : is_iso8601_datetime_string s = true := h.resolve_right hd
    obtain ⟨d, hds⟩ := Option.isSome_iff_exists.mp
      (by simpa [is_iso8601_datetime_string] using hi)
    rw [hds]
    simp

/-! ### Helper lemmas: header and branch regexes, endings -/

theorem endNlOk_cases {t : List Char} (h : endNlOk t = true) : t = [] ∨ t = ['\n'] := by
  match t with
  | [] => exact Or.inl rfl
  | [c] =>
    simp only [endNlOk, decide_eq_true_eq] at h
    exact Or.inr (by rw [h])
  | _ :: _ :: _ => simp [endNlOk] at h

theorem endSlashNl_cases {t : List Char} (h : endSlashNl t = true) :
    t = [] ∨ t = ['\n'] ∨ t = ['/'] ∨ t = ['/', '\n'] := by
  match t with
  | [] => exact Or.inl rfl
  | [c] =>
    simp only [endSlashNl, Bool.or_eq_true, decide_eq_true_eq] at h
    rcases h with h | h
    · exact Or.inr (Or.inl (by rw [h]))
    · exact Or.inr (Or.inr (Or.inl (by rw [h])))
  | [c1, c2] =>
    simp only [endSlashNl, Bool.and_eq_true, decide_eq_true_eq] at h
    exact Or.inr (Or.inr (Or.inr (by rw [h.1, h.2])))
  | _ :: _ :: _ :: _ => simp [endSlashNl] at h

theorem headerValueMatches_true {v : String} (h : headerValueMatches v = true) :
    v.data = [] ∨ v.data = ['\n'] ∨
      ∃ c mid tail, v.data = c :: (mid ++ tail) ∧ isPySpace c = false ∧
        (∀ x ∈ mid, x ≠ '\r' ∧ x ≠ '\n') ∧ (tail = [] ∨ tail = ['\n']) := by
  unfold headerValueMatches at h
  cases hv : v.data with
  | nil => exact Or.inl rfl
  | cons c cs =>
    rw [hv] at h
    simp only [Bool.or_eq_true, Bool.and_eq_true, Bool.not_eq_true', decide_eq_true_eq,
      List.cons.injEq] at h
    refine h.elim (fun hA => hA.elim (fun hC => ?_) (fun hD => absurd hD (by simp)))
      (fun hB => ?_)
    · refine Or.inr (Or.inr ⟨c, cs.takeWhile (fun d => d ≠ '\r' && d ≠ '\n'),
        cs.dropWhile (fun d => d ≠ '\r' && d ≠ '\n'), ?_, hC.1, ?_, ?_⟩)
      · rw [List.takeWhile_append_dropWhile]
      · intro x hx
        have := List.mem_takeWhile_imp hx
        simp only [Bool.and_eq_true, decide_eq_true_eq] at this
        exact this
      · exact endNlOk_cases hC.2
    · exact Or.inr (Or.inl (by rw [hB.1, hB.2]))

theorem branch_true {b : String} (h : is_correct_github_branch_name b = true) :
    ∃ c mid tail, b.data = c :: (mid ++ tail) ∧ branchCharOk c = true ∧
      (∀ x ∈ mid, branchCharOk x = true) ∧ (tail = [] ∨ tail = ['\n']) := by
  unfold is_correct_github_branch_name at h
  cases hv : b.data with
  | nil => rw [hv] at h; simp at h
  | cons c cs =>
    rw [hv] at h
    simp only [Bool.and_eq_true] at h
    exact ⟨c, cs.takeWhile branchCharOk, cs.dropWhile branchCharOk,
      by rw [List.takeWhile_append_dropWhile], h.1,
      fun x hx => List.mem_takeWhile_imp hx, endNlOk_cases h.2⟩

theorem ownerTailOk_mem_ne_slash :
    ∀ t : List Char, ownerTailOk t = true → ∀ x ∈ t, x ≠ '/' := by
  intro t
  induction t with
  | nil => intro _ x hx; simp at hx
  | cons c rest ih =>
    intro h x hx
    by_cases h1 : alnumCI c
    · have hrest : ownerTailOk rest = true := by simpa [ownerTailOk, h1] using h
      rcases List.mem_cons.mp hx with rfl | hx2
      · exact alnumCI_ne_slash h1
      · exact ih hrest x hx2
    · by_cases h2 : c = '-'
      · subst h2
        cases rest with
        | nil => simp [ownerTailOk, (show alnumCI '-' = false by decide)] at h
        | cons d rest2 =>
          have hd : alnumCI d = true ∧ ownerTailOk (d :: rest2) = true := by
            simpa [ownerTailOk, (show alnumCI '-' = false by decide),
              Bool.and_eq_true] using h
          rcases List.mem_cons.mp hx with rfl | hx2
          · decide
          · exact ih hd.2 x hx2
      · simp [ownerTailOk, bool_not_true h1, h2] at h

theorem slash_mem_rstrip_of_url {u : String} (h : is_correct_github_url u = true) :
    '/' ∈ rstripSlash u.data := by
  unfold is_correct_github_url at h
  cases hm : matchCore u.data with
  | none => rw [hm] at h; exact absurd h (by simp)
  | some r =>
    rw [hm] at h
    obtain ⟨p, c, t1, t2, _, hdecomp, hc, _, _, ht2ne, ht2, _⟩ := matchCore_sound hm
    obtain ⟨t2i, t2l, rfl⟩ : ∃ i l, t2 = i ++ [l] := by
      rcases List.eq_nil_or_concat t2 with hnil | ⟨i, l, hh⟩
      · exact absurd hnil ht2ne
      · exact ⟨i, l, by simpa [List.concat_eq_append] using hh⟩
    have hlast_ok : repoOk t2l = true := ht2 t2l (by simp)
    have hlns : t2l ≠ '/' := repoOk_ne_slash hlast_ok
    have hW : p ++ c :: (t1 ++ '/' :: ((t2i ++ [t2l]) ++ r)) =
        ((p ++ c :: (t1 ++ '/' :: t2i)) ++ [t2l]) ++ r := by simp
    have hmemW : '/' ∈ (p ++ c :: (t1 ++ '/' :: t2i)) ++ [t2l] := by simp
    rw [hdecomp, hW]
    rcases endSlashNl_cases h with rfl | rfl | rfl | rfl
    · rw [List.append_nil,
        rstripSlash_eq_self (by rw [List.getLast?_concat]; simp [hlns])]
      exact hmemW
    · rw [rstripSlash_eq_self (by
        rw [List.getLast?_append_of_ne_nil _ (by simp)]
        simp)]
      exact List.mem_append_left _ hmemW
    · rw [show ((p ++ c :: (t1 ++ '/' :: t2i)) ++ [t2l]) ++ ['/'] =
          (((p ++ c :: (t1 ++ '/' :: t2i)) ++ [t2l]) ++ ['/'] : List Char) from rfl,
        rstripSlash_append_slash,
        rstripSlash_eq_self (by rw [List.getLast?_concat]; simp [hlns])]
      exact hmemW
    · rw [rstripSlash_eq_self (by
        rw [List.getLast?_append_of_ne_nil _ (by simp)]
        simp)]
      exact List.mem_append_left _ hmemW

theorem ownerName_isSome_of_url {u : String} (h : is_correct_github_url u = true) :
    (get_repository_owner_and_name_from_url u).isSome = true := by
  have hmem := slash_mem_rstrip_of_url h
  have hlen := splitOnSlash_length_ge_two hmem
  have hsome := lastTwo_isSome _ hlen
  unfold get_repository_owner_and_name_from_url
  cases hlt : lastTwo (splitOnSlash (rstripSlash u.data)) with
  | none => rw [hlt] at hsome; simp at hsome
  | some pr => rcases pr with ⟨po, pn⟩; rfl

theorem relaxed_of_url_no_nl {s : String} (hnl : s.data.getLast? ≠ some '\n')
    (h : is_correct_github_url s = true) : relaxedGithubUrlShape s = true := by
  unfold is_correct_github_url at h
  cases hm : matchCore s.data with
  | none => rw [hm] at h; exact absurd h (by simp)
  | some r =>
    rw [hm] at h
    obtain ⟨p, c, t1, t2, hstrip, hdecomp, hc, ht1, hlen1, ht2ne, ht2, hlen2⟩ :=
      matchCore_sound hm
    have hsf1 : ∀ x ∈ c :: t1, x ≠ '/' := by
      intro x hx
      rcases List.mem_cons.mp hx with rfl | hx2
      · exact alnumCI_ne_slash hc
      · exact ownerTailOk_mem_ne_slash t1 ht1 x hx2
    have hsf2 : ∀ x ∈ t2, x ≠ '/' := fun x hx => repoOk_ne_slash (ht2 x hx)
    have hOC : ownerChunk (c :: t1) = true := by
      simp only [ownerChunk, hc, ht1, Bool.and_eq_true, decide_eq_true_eq,
        List.length_cons, Bool.true_and]
      omega
    have hRC : repoChunk t2 = true := by
      obtain ⟨tc, tt, rfl⟩ : ∃ a l, t2 = a :: l := by
        cases t2 with
        | nil => exact absurd rfl ht2ne
        | cons a l => exact ⟨a, l, rfl⟩
      simp only [repoChunk, List.isEmpty_cons, Bool.not_false, List.all_eq_true,
        Bool.and_eq_true, decide_eq_true_eq, Bool.true_and]
      exact ⟨fun x hx => ht2 x hx, hlen2⟩
    have hlastr : ∀ rr : List Char, rr ≠ [] → r = rr → s.data.getLast? = rr.getLast? := by
      intro rr hne hreq
      rw [hdecomp, hreq,
        show p ++ c :: (t1 ++ '/' :: (t2 ++ rr)) = (p ++ c :: (t1 ++ '/' :: t2)) ++ rr from
          by simp]
      exact List.getLast?_append_of_ne_nil _ hne
    rcases endSlashNl_cases h with rfl | rfl | rfl | rfl
    · unfold relaxedGithubUrlShape
      rw [hstrip]
      try dsimp only
      rw [show splitOnSlash (c :: (t1 ++ '/' :: (t2 ++ []))) = [c :: t1, t2] from by
        rw [List.append_nil, show c :: (t1 ++ '/' :: t2) = (c :: t1) ++ '/' :: t2 from by simp,
          splitOnSlash_append_slash, splitOnSlash_slashFree hsf1,
          splitOnSlash_slashFree hsf2]
        rfl]
      simp [hOC, hRC]
    · exact absurd (hlastr ['\n'] (by simp) rfl) (by simpa using hnl)
    · unfold relaxedGithubUrlShape
      rw [hstrip]
      try dsimp only
      rw [show splitOnSlash (c :: (t1 ++ '/' :: (t2 ++ ['/']))) = [c :: t1, t2, []] from by
        rw [show c :: (t1 ++ '/' :: (t2 ++ ['/'])) =
            (c :: t1) ++ '/' :: (t2 ++ '/' :: []) from by simp,
          splitOnSlash_append_slash, splitOnSlash_append_slash,
          splitOnSlash_slashFree hsf1, splitOnSlash_slashFree hsf2]
        rfl]
      simp [hOC, hRC]
    · exact absurd (hlastr ['/', '\n'] (by simp) rfl) (by simpa using hnl)

theorem getLast?_ne_slash_of_slashFree {rd : List Char} (hsfr : ∀ x ∈ rd, x ≠ '/') :
    rd.getLast? ≠ some '/' := by
  intro hq
  exact hsfr '/' (List.mem_of_getLast?_eq_some hq) rfl

theorem split_of_ghurl {od rd : List Char}
    (hsfo : ∀ x ∈ od, x ≠ '/') (hsfr : ∀ x ∈ rd, x ≠ '/') :
    splitOnSlash ("https://github.com/".data ++ (od ++ '/' :: rd)) =
      splitOnSlash "https://github.com".data ++ [od, rd] := by
  rw [show "https://github.com/".data ++ (od ++ '/' :: rd) =
      "https://github.com".data ++ '/' :: (od ++ '/' :: rd) from by simp,
    splitOnSlash_append_slash, splitOnSlash_append_slash,
    splitOnSlash_slashFree hsfo, splitOnSlash_slashFree hsfr]
  rfl

theorem ghurl_data (o rep : String) :
    ("https://github.com/" ++ o ++ "/" ++ rep).data =
      "https://github.com/".data ++ (o.data ++ '/' :: rep.data) := by
  simp [String.data_append]

theorem validateAccepts_parts {a : CliArgs} (h : validateAccepts a = true) :
    is_correct_github_url a.url = true ∧
    (is_iso8601_datetime_string a.startDate = true ∨ is_date_string a.startDate = true) ∧
    (is_iso8601_datetime_string a.endDate = true ∨ is_date_string a.endDate = true) ∧
    is_correct_github_branch_name a.branch = true ∧
    pyStrLe a.startDate a.endDate = true := by
  simp only [validateAccepts, Bool.and_eq_true, Bool.or_eq_true] at h
  exact ⟨h.1.1.1.1, h.1.1.1.2, h.1.1.2, h.1.2, h.2⟩

/-! ### Claims -/

/-- Claim C1 (code bug).  The spec and the docstrings of `DateTimeUtils`
say a bare `YYYY-MM-DD` start date becomes `YYYY-MM-DDT00:00:00Z` and a
bare end date becomes `YYYY-MM-DDT23:59:59Z` (midnight/23:59:59 UTC of
the SAME calendar date).  The code, however, parses the bare date with
`strptime` (naive) and then calls `.astimezone(timezone.utc)`, which
interprets the naive midnight in the PROCESS-LOCAL timezone.  In any
non-UTC environment the result is shifted: with local time UTC+03:00
(offset 180 minutes), start `2020-01-01` evaluates to
`2019-12-31T21:00:00Z` and end `2020-01-02` to `2020-01-02T20:59:59Z`,
contradicting the claim and the docstring; only in a UTC environment
(offset 0) does the claimed behaviour hold. -/
theorem c1_bare_date_depends_on_local_timezone :
    get_start_datetime_from_date 180 "2020-01-01" = some "2019-12-31T21:00:00Z" ∧
    get_end_datetime_from_date 180 "2020-01-02" = some "2020-01-02T20:59:59Z" ∧
    get_start_datetime_from_date 180 "2020-01-01" ≠ some "2020-01-01T00:00:00Z" ∧
    get_start_datetime_from_date 0 "2020-01-01" = some "2020-01-01T00:00:00Z" ∧
    get_end_datetime_from_date 0 "2020-01-02" = some "2020-01-02T23:59:59Z" :=
  ⟨rfl, rfl, by decide, rfl, rfl⟩

/-- Claim C2, counterexample.  The CLI validation compares the RAW
argument strings, not the normalized ones.  The pair
start = `2020-01-01 23:00:00` (space separator, a valid ISO-8601 input
for `fromisoformat`) and end = `2020-01-01T00:00:00` is accepted —
lexicographically `' '` (0x20) sorts before `'T'` (0x54) — but after
normalization start `2020-01-01T23:00:00Z` is strictly GREATER than end
`2020-01-01T00:00:00Z`. -/
theorem c2_counterexample :
    validateAccepts ⟨"https://github.com/octocat/Hello-World", "2020-01-01 23:00:00",
      "2020-01-01T00:00:00", "master"⟩ = true ∧
    get_serialized_args 0 (validate_args ⟨"https://github.com/octocat/Hello-World",
      "2020-01-01 23:00:00", "2020-01-01T00:00:00", "master"⟩) =
      some ⟨"octocat", "Hello-World", "2020-01-01T23:00:00Z", "2020-01-01T00:00:00Z",
        "master"⟩ ∧
    pyStrLe "2020-01-01T23:00:00Z" "2020-01-01T00:00:00Z" = false :=
  ⟨rfl, rfl, rfl⟩

/-- Claim C2 (amended).  For every argument set accepted by
`validate_args`, the RAW (pre-normalization) start string is
lexicographically less than or equal to the raw end string; the
post-normalization invariant claimed by the spec does not hold in
general (see the counterexample). -/
theorem c2_raw_start_le_end (a : CliArgs) (h : validateAccepts a = true) :
    pyStrLe a.startDate a.endDate = true :=
  (validateAccepts_parts h).2.2.2.2

/-- Witness for the amended claim C2 at a concrete accepted input. -/
theorem c2_raw_start_le_end_witness :
    validateAccepts ⟨"https://github.com/octocat/Hello-World", "2020-01-01",
      "2020-01-02", "master"⟩ = true ∧
    pyStrLe "2020-01-01" "2020-01-02" = true :=
  ⟨rfl, c2_raw_start_le_end ⟨"https://github.com/octocat/Hello-World", "2020-01-01",
    "2020-01-02", "master"⟩ rfl⟩

/-- Claim C3, counterexample.  Two URLs that do not have the shape
`https://github.com/<owner>/<repo>` are nevertheless accepted by
`is_correct_github_url`: a shape-matching URL followed by a newline
(Python `$` matches just before a final newline), and a URL in which
the dot of `github.com` is replaced by `X` (the regex dot is
unescaped, so it matches any non-newline character). -/
theorem c3_counterexample :
    specGithubUrlShape "https://github.com/octocat/Hello-World\n" = false ∧
    is_correct_github_url "https://github.com/octocat/Hello-World\n" = true ∧
    specGithubUrlShape "https://githubXcom/octocat/Hello-World" = false ∧
    is_correct_github_url "https://githubXcom/octocat/Hello-World" = true :=
  ⟨rfl, rfl, rfl, rfl⟩

/-- Claim C3 (amended).  For every string that does not end in a newline
and does not have the relaxed shape — `https://github.com/<owner>/<repo>`
with the 15th character (the unescaped dot of `github.com`) allowed to be
any non-newline character, optionally one trailing slash —
`is_correct_github_url` returns `false`.  (Shape-matching strings with
one trailing newline are accepted, Python `$` semantics.) -/
theorem c3_non_shape_rejected (s : String) (hnl : s.data.getLast? ≠ some '\n')
    (hshape : relaxedGithubUrlShape s = false) : is_correct_github_url s = false := by
  by_cases h : is_correct_github_url s = true
  · exact absurd (relaxed_of_url_no_nl hnl h) (by simp [hshape])
  · exact bool_not_true h

/-- Witness for the amended claim C3 at a concrete non-shape input. -/
theorem c3_non_shape_rejected_witness :
    ("https://github.com/a b/c".data.getLast? ≠ some '\n') ∧
    relaxedGithubUrlShape "https://github.com/a b/c" = false ∧
    is_correct_github_url "https://github.com/a b/c" = false :=
  ⟨by decide, rfl, c3_non_shape_rejected "https://github.com/a b/c" (by decide) rfl⟩

/-- Claim C4 (code bug).  `Request.validate_url` does NOT raise
`InvalidURLError` for invalid URLs: the method matches the URL against
`_VALID_HEADER_REGEX` instead of `_VALID_URL_REGEX` (which is defined but
never used), so the clearly-not-a-URL string `not a url` passes silently,
while a URL with a leading space raises — the behaviour of the HEADER
rule.  Moreover `do_request` never calls `validate_url` (see its
definition), so `InvalidURLError` is never raised from the request path
at all. -/
theorem c4_validate_url_checks_header_rule :
    validate_url_raises "not a url" = false ∧
    validate_url_raises "" = false ∧
    validate_url_raises " http://leading-space" = true ∧
    headerValueMatches "not a url" = true :=
  ⟨rfl, rfl, rfl, rfl⟩

/-- Claim C5, counterexample.  The header value `abc\n` contains an
embedded newline, yet `validate_header` does NOT raise: the regex `$`
matches just before the single final newline, so the value matches
`^\S[^\r\n]*$` and passes validation. -/
theorem c5_counterexample :
    ('\n' ∈ "abc\n".data) ∧ isPySpace '\n' = true ∧
    validate_header_raises ("X-Test", "abc\n") = false ∧
    firstBadHeader [("X-Test", "abc\n")] = none :=
  ⟨by decide, rfl, rfl, rfl⟩

/-- Claim C5 (amended).  For every headers dictionary containing a value
with leading whitespace or an embedded CR/LF character — except the value
`"\n"` itself and values whose only CR/LF is one single trailing newline
(`trailingNlValue`) — `validate_header` raises `InvalidHeaderError` and
`validate_headers` (hence `do_request`) rejects the dictionary.  In
particular every value containing the two-character sequence `\r\n` is
rejected, since a carriage return can never sit in the tolerated
trailing position. -/
theorem c5_bad_header_raises (hs : Headers) (k v : String) (hmem : (k, v) ∈ hs)
    (hbad : (∃ c0 ∈ v.data.head?, isPySpace c0 = true) ∨ '\r' ∈ v.data ∨ '\n' ∈ v.data)
    (hne : v ≠ "\n") (hexc : trailingNlValue v = false) :
    validate_header_raises (k, v) = true ∧ firstBadHeader hs ≠ none := by
  have hm : headerValueMatches v = false := by
    by_cases hM : headerValueMatches v = true
    · exfalso
      rcases headerValueMatches_true hM with hemp | hnlv | ⟨c, mid, tail, hdata, hns, hmid, htail⟩
      · rcases hbad with ⟨c0, hc0, _⟩ | hr | hn
        · rw [hemp] at hc0; simp at hc0
        · rw [hemp] at hr; simp at hr
        · rw [hemp] at hn; simp at hn
      · apply hne
        cases v with
        | mk d => exact congrArg String.mk hnlv
      · rcases htail with rfl | rfl
        · rcases hbad with ⟨c0, hc0, hsp⟩ | hr | hn
          · rw [hdata] at hc0
            simp only [List.head?_cons, Option.mem_def, Option.some.injEq] at hc0
            rw [hc0] at hns
            rw [hns] at hsp
            exact absurd hsp (by simp)
          · rw [hdata, List.append_nil] at hr
            rcases List.mem_cons.mp hr with hq | hq
            · rw [← hq] at hns; exact absurd hns (by decide)
            · exact (hmid _ hq).1 rfl
          · rw [hdata, List.append_nil] at hn
            rcases List.mem_cons.mp hn with hq | hq
            · rw [← hq] at hns; exact absurd hns (by decide)
            · exact (hmid _ hq).2 rfl
        · apply absurd _ (by simp [hexc] : ¬trailingNlValue v = true)
          unfold trailingNlValue
          rw [hdata]
          try dsimp only
          rw [List.dropLast_concat, List.getLast?_concat]
          simp only [hns, Bool.not_false, List.all_eq_true, Bool.and_eq_true,
            decide_eq_true_eq, Bool.true_and]
          refine ⟨⟨by simp, fun x hx => ?_⟩, trivial⟩
          exact ⟨by simpa using (hmid x hx).1, by simpa using (hmid x hx).2⟩
    · exact bool_not_true hM
  refine ⟨by simp [validate_header_raises, hm], ?_⟩
  intro hnone
  unfold firstBadHeader at hnone
  cases hf : hs.find? (fun kv => validate_header_raises kv) with
  | some x => rw [hf] at hnone; simp at hnone
  | none =>
    have := List.find?_eq_none.mp hf (k, v) hmem
    apply this
    simp [validate_header_raises, hm]

/-- Witness for the amended claim C5 at a concrete bad header. -/
theorem c5_bad_header_raises_witness :
    validate_header_raises ("K", " leading") = true ∧
    firstBadHeader [("K", " leading")] ≠ none :=
  c5_bad_header_raises [("K", " leading")] "K" " leading"
    (List.mem_cons_self ..) (Or.inl ⟨' ', rfl, rfl⟩) (by decide) rfl

/-- Claim C6 (confirmed).  When the request reaches the transport (header
validation passed and, if a truthy body is present, it is valid JSON),
`do_request` does not propagate transport errors: an `HTTPError` outcome
yields a `Response` whose body is the reason of the error and whose status
code is the HTTP code of the error (with the headers carried by the error), and a
`URLError` (name-resolution/connection failure) yields a `Response`
whose body is the reason of the error and whose status code is the fixed
surrogate 101 (with the wrapper request headers). -/
theorem c6_transport_errors_become_responses (method url : String)
    (body_json : Option String) (headers0 : Option Headers) (code : Int)
    (reason reason2 : String) (ehdrs : Headers)
    (hhdr : firstBadHeader (headers0.getD []) = none)
    (hjson : bodyTruthy body_json = true → jsonValid (body_json.getD "") = true) :
    (do_request method url (.httpError code reason ehdrs) body_json headers0).1 =
      .ok ⟨code, some reason, ehdrs⟩ ∧
    (do_request method url (.urlError reason2) body_json headers0).1 =
      .ok ⟨101, some reason2, localHeadersAfter body_json (headers0.getD [])⟩ := by
  have hmatch : (if (headers0.getD []).isEmpty = true then none
      else firstBadHeader (headers0.getD [])) = none := by
    by_cases hemp : (headers0.getD []).isEmpty = true
    · rw [if_pos hemp]
    · rw [if_neg hemp]; exact hhdr
  by_cases hbt : bodyTruthy body_json = true
  · constructor
    · simp only [do_request]
      rw [hmatch]
      try dsimp only
      rw [if_pos hbt, if_pos (hjson hbt)]
      rfl
    · simp only [do_request]
      rw [hmatch]
      try dsimp only
      rw [if_pos hbt, if_pos (hjson hbt)]
      simp [localHeadersAfter, hbt, mkResponse]
  · constructor
    · simp only [do_request]
      rw [hmatch]
      try dsimp only
      rw [if_neg hbt]
      rfl
    · simp only [do_request]
      rw [hmatch]
      try dsimp only
      rw [if_neg hbt]
      simp [localHeadersAfter, hbt, mkResponse]

/-- Witness for claim C6 at a concrete request. -/
theorem c6_transport_errors_witness :
    firstBadHeader ((some [("X-A", "b")] : Option Headers).getD []) = none ∧
    (do_request "POST" "http://example.test" (.httpError 404 "Not Found" [("Server", "s")])
        (some "123") (some [("X-A", "b")])).1 = .ok ⟨404, some "Not Found", [("Server", "s")]⟩ ∧
    (do_request "POST" "http://example.test" (.urlError "connection refused")
        (some "123") (some [("X-A", "b")])).1 =
      .ok ⟨101, some "connection refused", localHeadersAfter (some "123") [("X-A", "b")]⟩ :=
  ⟨rfl,
    (c6_transport_errors_become_responses "POST" "http://example.test" (some "123")
      (some [("X-A", "b")]) 404 "Not Found" "connection refused" [("Server", "s")]
      rfl (fun _ => rfl)).1,
    (c6_transport_errors_become_responses "POST" "http://example.test" (some "123")
      (some [("X-A", "b")]) 404 "Not Found" "connection refused" [("Server", "s")]
      rfl (fun _ => rfl)).2⟩

/-- Claim C7, counterexample.  The branch name `main\n` contains a
whitespace character (the newline), yet `is_correct_github_branch_name`
accepts it: `$` matches just before the final newline. -/
theorem c7_counterexample :
    ('\n' ∈ "main\n".data) ∧ isPySpace '\n' = true ∧
    is_correct_github_branch_name "main\n" = true :=
  ⟨by decide, rfl, rfl⟩

/-- Claim C7 (amended).  A branch name containing a space, a backslash,
or any whitespace character anywhere but as a single trailing newline is
rejected by `is_correct_github_branch_name`: (1) any whitespace or
backslash before the last character forces rejection, and (2) a last
character that is a backslash or a whitespace other than `'\n'` forces
rejection.  (A branch whose only whitespace is one trailing newline is
accepted, Python `$` semantics.) -/
theorem c7_branch_whitespace_rejected :
    (∀ (b : String) (c : Char), c ∈ b.data.dropLast →
      (isPySpace c = true ∨ c = '\\') → is_correct_github_branch_name b = false) ∧
    (∀ (b : String) (c : Char), b.data.getLast? = some c →
      ((isPySpace c = true ∧ c ≠ '\n') ∨ c = '\\') →
      is_correct_github_branch_name b = false) := by
  constructor
  · intro b c hmem hbad
    by_cases hb : is_correct_github_branch_name b = true
    · exfalso
      obtain ⟨c0, mid, tail, hdata, hc0, hmid, htail⟩ := branch_true hb
      have hx2 : c ∈ c0 :: mid := by
        rcases htail with rfl | rfl
        · rw [hdata, List.append_nil] at hmem
          exact List.dropLast_subset _ hmem
        · rw [hdata, show c0 :: (mid ++ ['\n']) = (c0 :: mid) ++ ['\n'] from by simp,
            List.dropLast_concat] at hmem
          exact hmem
      have hok : branchCharOk c = true := by
        rcases List.mem_cons.mp hx2 with rfl | hx3
        · exact hc0
        · exact hmid c hx3
      rcases hbad with hsp | rfl
      · simp [branchCharOk, hsp] at hok
      · simp [branchCharOk] at hok
    · exact bool_not_true hb
  · intro b c hlast hbad
    by_cases hb : is_correct_github_branch_name b = true
    · exfalso
      obtain ⟨c0, mid, tail, hdata, hc0, hmid, htail⟩ := branch_true hb
      rcases htail with rfl | rfl
      · have hmm : c ∈ b.data := List.mem_of_getLast?_eq_some hlast
        rw [hdata, List.append_nil] at hmm
        have hok : branchCharOk c = true := by
          rcases List.mem_cons.mp hmm with rfl | hx
          · exact hc0
          · exact hmid c hx
        rcases hbad with ⟨hsp, _⟩ | rfl
        · simp [branchCharOk, hsp] at hok
        · simp [branchCharOk] at hok
      · rw [hdata, show c0 :: (mid ++ ['\n']) = (c0 :: mid) ++ ['\n'] from by simp,
          List.getLast?_concat] at hlast
        have hcnl : c = '\n' := (Option.some.inj hlast).symm
        rcases hbad with ⟨_, hne⟩ | rfl
        · exact absurd hcnl hne
        · exact absurd hcnl (by decide)
    · exact bool_not_true hb

/-- Witness for the amended claim C7 at a concrete branch name with a
space. -/
theorem c7_branch_whitespace_rejected_witness :
    (' ' ∈ "bad branch".data.dropLast) ∧
    is_correct_github_branch_name "bad branch" = false :=
  ⟨by decide,
    c7_branch_whitespace_rejected.1 "bad branch" ' ' (by decide) (Or.inl rfl)⟩

/-- Claim C8 (confirmed).  For every URL of the accepted shape
`https://github.com/<owner>/<repo>` (owner/repo drawn from the regex
character sets), with or without one trailing slash, the URL passes
`is_correct_github_url` and `get_repository_owner_and_name_from_url`
returns exactly the pair `(<owner>, <repo>)` — the last two
slash-separated segments after trimming the trailing slash. -/
theorem c8_owner_repo_extraction (o rep : String)
    (ho : ownerChunk o.data = true) (hrep : repoChunk rep.data = true) :
    is_correct_github_url ("https://github.com/" ++ o ++ "/" ++ rep) = true ∧
    is_correct_github_url ("https://github.com/" ++ o ++ "/" ++ rep ++ "/") = true ∧
    get_repository_owner_and_name_from_url ("https://github.com/" ++ o ++ "/" ++ rep) =
      some (o, rep) ∧
    get_repository_owner_and_name_from_url ("https://github.com/" ++ o ++ "/" ++ rep ++ "/") =
      some (o, rep) := by
  have hne_rep : rep.data ≠ [] := by
    intro hq
    rw [hq] at hrep
    simp [repoChunk] at hrep
  have hsfo : ∀ x ∈ o.data, x ≠ '/' := by
    intro x hx
    obtain ⟨c, t, hct⟩ : ∃ c t, o.data = c :: t := by
      cases hoc : o.data with
      | nil => rw [hoc] at ho; simp [ownerChunk] at ho
      | cons c t => exact ⟨c, t, rfl⟩
    rw [hct] at hx ho
    have hparts : alnumCI c = true ∧ ownerTailOk t = true := by
      simp only [ownerChunk, Bool.and_eq_true, decide_eq_true_eq] at ho
      exact ⟨ho.1.1, ho.1.2⟩
    rcases List.mem_cons.mp hx with rfl | hx2
    · exact alnumCI_ne_slash hparts.1
    · exact ownerTailOk_mem_ne_slash t hparts.2 x hx2
  have hsfr : ∀ x ∈ rep.data, x ≠ '/' := by
    intro x hx
    have hall : rep.data.all repoOk = true := by
      simp only [repoChunk, Bool.and_eq_true] at hrep
      exact hrep.1.2
    exact repoOk_ne_slash (List.all_eq_true.mp hall x hx)
  have hd1 : ("https://github.com/" ++ o ++ "/" ++ rep).data =
      "https://github.com/".data ++ (o.data ++ '/' :: rep.data) := ghurl_data o rep
  have hd2 : ("https://github.com/" ++ o ++ "/" ++ rep ++ "/").data =
      "https://github.com/".data ++ (o.data ++ '/' :: (rep.data ++ ['/'])) := by
    simp [String.data_append]
  have hacc1 : is_correct_github_url ("https://github.com/" ++ o ++ "/" ++ rep) = true := by
    unfold is_correct_github_url
    rw [hd1, show o.data ++ '/' :: rep.data = o.data ++ '/' :: (rep.data ++ []) from by simp,
      matchCore_complete ho hrep (by simp)]
    rfl
  have hacc2 : is_correct_github_url ("https://github.com/" ++ o ++ "/" ++ rep ++ "/") =
      true := by
    unfold is_correct_github_url
    rw [hd2, matchCore_complete ho hrep (fun h hh => by
      simp only [List.head?_cons, Option.some.injEq] at hh
      rw [← hh]
      decide)]
    rfl
  have hglast : ("https://github.com/" ++ o ++ "/" ++ rep).data.getLast? ≠ some '/' := by
    rw [hd1, show "https://github.com/".data ++ (o.data ++ '/' :: rep.data) =
        ("https://github.com/".data ++ (o.data ++ ['/'])) ++ rep.data from by simp,
      List.getLast?_append_of_ne_nil _ hne_rep]
    exact getLast?_ne_slash_of_slashFree hsfr
  have hrs1 : rstripSlash ("https://github.com/" ++ o ++ "/" ++ rep).data =
      ("https://github.com/" ++ o ++ "/" ++ rep).data := rstripSlash_eq_self hglast
  have hsplit : splitOnSlash ("https://github.com/" ++ o ++ "/" ++ rep).data =
      splitOnSlash "https://github.com".data ++ [o.data, rep.data] := by
    rw [hd1, split_of_ghurl hsfo hsfr]
  have hex1 : get_repository_owner_and_name_from_url
      ("https://github.com/" ++ o ++ "/" ++ rep) = some (o, rep) := by
    unfold get_repository_owner_and_name_from_url
    rw [hrs1, hsplit, lastTwo_append_pair]
  have hrs2 : rstripSlash ("https://github.com/" ++ o ++ "/" ++ rep ++ "/").data =
      ("https://github.com/" ++ o ++ "/" ++ rep).data := by
    rw [show ("https://github.com/" ++ o ++ "/" ++ rep ++ "/").data =
        ("https://github.com/" ++ o ++ "/" ++ rep).data ++ ['/'] from by
          simp [String.data_append],
      rstripSlash_append_slash]
    exact hrs1
  have hex2 : get_repository_owner_and_name_from_url
      ("https://github.com/" ++ o ++ "/" ++ rep ++ "/") = some (o, rep) := by
    unfold get_repository_owner_and_name_from_url
    rw [hrs2, hsplit, lastTwo_append_pair]
  exact ⟨hacc1, hacc2, hex1, hex2⟩

/-- Witness for claim C8 at the spec own example. -/
theorem c8_owner_repo_extraction_witness :
    ownerChunk "octocat".data = true ∧ repoChunk "Hello-World".data = true ∧
    is_correct_github_url "https://github.com/octocat/Hello-World" = true ∧
    get_repository_owner_and_name_from_url "https://github.com/octocat/Hello-World" =
      some ("octocat", "Hello-World") :=
  ⟨rfl, rfl,
    (c8_owner_repo_extraction "octocat" "Hello-World" rfl rfl).1,
    (c8_owner_repo_extraction "octocat" "Hello-World" rfl rfl).2.2.1⟩

/-- Claim C9, counterexample.  A caller-supplied EMPTY headers dictionary
is falsy in Python, so `do_request` replaces it with a fresh local dict
(`if not headers: headers = {}`) and sets `Content-Type` on that fresh
dict: the caller-side dictionary is left unchanged even though a truthy JSON
body was passed. -/
theorem c9_counterexample :
    bodyTruthy (some "123") = true ∧
    (do_request "POST" "http://example.test" (.urlError "nope") (some "123")
      (some [])).2 = [] :=
  ⟨rfl, rfl⟩

/-- Claim C9 (amended).  When `do_request` is called with a truthy JSON
body and a NON-EMPTY caller-supplied headers dictionary that passes
validation, the caller-side dictionary is mutated in place: after the call
it equals the original with the key `Content-Type` set to
`application/json` (overwritten in place if present, appended
otherwise).  When the body is not truthy (absent or empty), the caller-side
dictionary is never modified.  An EMPTY caller dictionary is falsy and is
never mutated (see the counterexample). -/
theorem c9_caller_headers_mutation :
    (∀ (method url : String) (outcome : TransportOutcome) (body_json : Option String)
        (hs : Headers), hs ≠ [] → firstBadHeader hs = none → bodyTruthy body_json = true →
      (do_request method url outcome body_json (some hs)).2 =
        pyDictSet hs "Content-Type" "application/json") ∧
    (∀ (method url : String) (outcome : TransportOutcome) (body_json : Option String)
        (headers0 : Option Headers), bodyTruthy body_json = false →
      (do_request method url outcome body_json headers0).2 = headers0.getD []) := by
  constructor
  · intro m u oc b hs hne hok hbt
    have hemp : hs.isEmpty = false := by
      cases hs with
      | nil => exact absurd rfl hne
      | cons a t => rfl
    simp only [do_request, Option.getD_some]
    rw [show (if hs.isEmpty = true then none else firstBadHeader hs) = none from by
      rw [if_neg (by simp [hemp])]; exact hok]
    try dsimp only
    rw [if_pos hbt]
    by_cases hjv : jsonValid (b.getD "") = true
    · rw [if_pos hjv]
      simp [hemp]
    · rw [if_neg hjv]
      simp [hemp]
  · intro m u oc b headers0 hbf
    simp only [do_request]
    cases hmm : (if (headers0.getD []).isEmpty = true then none
        else firstBadHeader (headers0.getD [])) with
    | some nm => rfl
    | none =>
      try dsimp only
      rw [if_neg (by simp [hbf])]

/-- Witness for the amended claim C9 at a concrete call. -/
theorem c9_caller_headers_mutation_witness :
    (do_request "POST" "http://example.test" (.urlError "nope") (some "123")
        (some [("A", "b")])).2 = pyDictSet [("A", "b")] "Content-Type" "application/json" ∧
    (do_request "GET" "http://example.test" (.urlError "nope") none
        (some [("A", "b")])).2 = [("A", "b")] :=
  ⟨c9_caller_headers_mutation.1 "POST" "http://example.test" (.urlError "nope")
      (some "123") [("A", "b")] (by decide) rfl rfl,
    c9_caller_headers_mutation.2 "GET" "http://example.test" (.urlError "nope")
      none (some [("A", "b")]) rfl⟩

/-- Claim C10 (confirmed).  Calling `get_serialized_args` before a
completed `validate_args` (the `validated_args` attribute absent,
modelled as `none`) hits the `assert` and yields no result; after any
completed (accepting) `validate_args` call the assertion cannot fire and
`get_serialized_args` returns a `GithubAnalyzerArgs` tuple built from the
validated arguments (evaluated here in a UTC environment, offset 0). -/
theorem c10_serialized_args_after_validation (tzMin : Int) (a v : CliArgs)
    (hv : validate_args a = some v) :
    get_serialized_args tzMin none = none ∧
    ∃ t, get_serialized_args 0 (some v) = some t := by
  refine ⟨rfl, ?_⟩
  have hpair : validateAccepts a = true ∧ v = a := by
    unfold validate_args at hv
    split at hv
    · exact ⟨by assumption, (Option.some.inj hv).symm⟩
    · exact absurd hv (by simp)
  obtain ⟨hacc, rfl⟩ := hpair
  obtain ⟨hurl, hstart, hend, _, _⟩ := validateAccepts_parts hacc
  obtain ⟨pr, hpr⟩ := Option.isSome_iff_exists.mp (ownerName_isSome_of_url hurl)
  obtain ⟨ns, hns⟩ := Option.isSome_iff_exists.mp (get_start_isSome_of_valid hstart)
  obtain ⟨nend, hnend⟩ := Option.isSome_iff_exists.mp (get_end_isSome_of_valid hend)
  rcases pr with ⟨po, pn⟩
  refine ⟨⟨po, pn, ns, nend, v.branch⟩, ?_⟩
  unfold get_serialized_args
  try dsimp only
  rw [hpr, hns, hnend]

/-- Witness for claim C10 at the spec example arguments. -/
theorem c10_serialized_args_witness :
    validate_args ⟨"https://github.com/octocat/Hello-World", "2020-01-01",
      "2020-01-02", "master"⟩ = some ⟨"https://github.com/octocat/Hello-World",
      "2020-01-01", "2020-01-02", "master"⟩ ∧
    get_serialized_args 240 none = none ∧
    ∃ t, get_serialized_args 0 (some ⟨"https://github.com/octocat/Hello-World",
      "2020-01-01", "2020-01-02", "master"⟩) = some t :=
  ⟨rfl,
    (c10_serialized_args_after_validation 240
      ⟨"https://github.com/octocat/Hello-World", "2020-01-01", "2020-01-02", "master"⟩
      ⟨"https://github.com/octocat/Hello-World", "2020-01-01", "2020-01-02", "master"⟩
      rfl).1,
    (c10_serialized_args_after_validation 240
      ⟨"https://github.com/octocat/Hello-World", "2020-01-01", "2020-01-02", "master"⟩
      ⟨"https://github.com/octocat/Hello-World", "2020-01-01", "2020-01-02", "master"⟩
      rfl).2⟩
